import Mathlib

set_option linter.all false

/-! Verification of the CPU scheduling simulator. The integration layer
(`MainForm.onSubmit`, the form schema, the timeline assembly pass and the
component state) is embedded from the source; the six scheduling strategy
modules and the metrics calculator are referenced by the source but their
files are not part of the sources at hand, so they are modelled from the
specification, as marked in their doc comments. -/

/-- The process record, from the source (`MainForm`): `process_id`,
`arrival_time` (overwritten to the actual start time in the assembled
timeline), `burst_time`, a display color, and an optional priority. -/
structure Process where
  process_id : Int
  arrival_time : Int
  burst_time : Int
  background : String
  priority : Option Int
deriving DecidableEq, Repr

/-- Strict lexicographic order on key triples, used for the shared
tie-break rule (primary key, then arrival time, then id). -/
def lexLT (x y : Int × Int × Int) : Bool :=
  decide (x.1 < y.1 ∨ (x.1 = y.1 ∧ (x.2.1 < y.2.1 ∨ (x.2.1 = y.2.1 ∧ x.2.2 < y.2.2))))

/-- Select the minimum of `d :: l` under the key `k`, keeping the earlier
element on ties (the shared deterministic tie-break). -/
def selMin (k : α → Int × Int × Int) (d : α) : List α → α
  | [] => d
  | x :: xs => if lexLT (k x) (k d) then selMin k x xs else selMin k d xs

/-- Select the minimum of a nonempty list under the key `k`; `none` on the
empty list. -/
def chooseMin (k : α → Int × Int × Int) : List α → Option α
  | [] => none
  | x :: xs => some (selMin k x xs)

/-- Fold of `min` over the values of `f`, starting from `a`. -/
def foldMin (f : α → Int) (a : Int) (l : List α) : Int :=
  l.foldl (fun m x => min m (f x)) a

/-- Time at which the CPU next becomes able to run something: the current
clock if some list element has already arrived, otherwise the clock
advanced to the earliest arrival in the list. -/
def nextFree (arr : α → Int) (clock : Int) (l : List α) : Int :=
  match l.filter (fun x => decide (arr x ≤ clock)) with
  | _ :: _ => clock
  | [] =>
    match l with
    | [] => clock
    | x :: xs => max clock (foldMin arr (arr x) xs)

/-- Ordering used by first-come-first-served and by the round-robin
arrival queue: by arrival time, ties broken by id. -/
def fcfsLE (a b : Process) : Prop :=
  a.arrival_time < b.arrival_time ∨
    (a.arrival_time = b.arrival_time ∧ a.process_id ≤ b.process_id)

instance : DecidableRel fcfsLE := fun a b => by
  unfold fcfsLE
  exact inferInstance

/-- Modelled from the spec: the `firstComeFirstServe` strategy module
(`@/lib/FirstComeFirstServe`) is not among the sources at hand. Spec 4.2:
order processes by arrival time ascending, ties by id; each entry runs its
full burst time; the Assembler computes actual start times. -/
def firstComeFirstServe (processes : List Process) : List Process :=
  List.insertionSort fcfsLE processes

/-- Key triple for the non-preemptive selection loops: strategy key, then
arrival time, then id. -/
def npKeyOf (key : Process → Int) (e : Process) : Int × Int × Int :=
  (key e, e.arrival_time, e.process_id)

/-- Modelled from the spec: shared control loop of the non-preemptive
clock-driven strategies (spec 4.3 and 4.6). While processes are pending:
if none is ready advance the clock to the next arrival; among the ready
ones pick the smallest key (tie: arrival, then id); run it to completion;
append it to the decision sequence. -/
def npLoop (key : Process → Int) : Nat → List Process → Int → List Process → List Process
  | 0, _, _, acc => acc
  | f + 1, pending, clock, acc =>
    let t := nextFree Process.arrival_time clock pending
    match chooseMin (npKeyOf key) (pending.filter (fun e => decide (e.arrival_time ≤ t))) with
    | none => acc
    | some chosen =>
      npLoop key f (pending.erase chosen) (t + chosen.burst_time) (acc ++ [chosen])

/-- Modelled from the spec: the `shortestJobFirst` strategy module
(`@/lib/ShortestJobFirst`) is not among the sources at hand. Spec 4.3:
non-preemptive, selection key is the burst time. -/
def shortestJobFirst (processes : List Process) : List Process :=
  npLoop Process.burst_time processes.length processes 0 []

/-- Modelled from the spec: the `nonPreemptivePriority` strategy module
(`@/lib/PriorityNonPreemptive`) is not among the sources at hand. Spec
4.6: non-preemptive, selection key is the priority (lower is more
urgent). -/
def nonPreemptivePriority (processes : List Process) : List Process :=
  npLoop (fun p => p.priority.getD 0) processes.length processes 0 []

/-- Per-run derived state of a process: the immutable input record plus
the remaining time, owned by the strategy executing the run (spec 3,
RuntimeProcess). -/
structure RProc where
  proc : Process
  remaining : Int
deriving DecidableEq, Repr

/-- Arrival time of a runtime process. -/
def pArr (r : RProc) : Int := r.proc.arrival_time

/-- Fresh runtime copy of an input process. -/
def toRP (p : Process) : RProc := ⟨p, p.burst_time⟩

/-- State of the round-robin simulation loop: ready queue, not yet
arrived processes, clock, decision sequence accumulated so far. -/
structure RRState where
  queue : List RProc
  future : List RProc
  clock : Int
  acc : List Process
deriving DecidableEq, Repr

/-- Arrival step of the round-robin loop: with an empty queue, advance
the clock to the next arrival and move the arrived processes into the
queue (in arrival order, ties by id, since the future list is kept in
that order). -/
def rrArrive (s : RRState) (r0 : RProc) (rest : List RProc) : RRState :=
  let t := max s.clock (foldMin pArr (pArr r0) rest)
  ⟨(r0 :: rest).filter (fun r => decide (pArr r ≤ t)),
    (r0 :: rest).filter (fun r => decide (¬ pArr r ≤ t)), t, s.acc⟩

/-- One running step of the round-robin loop: the queue head runs for
`min(remaining, quantum)`, the decision is recorded, the processes that
arrived during the slice join the queue, and the head re-enters the queue
after them when it still has remaining time. -/
def rrRun (q : Int) (s : RRState) (h : RProc) (qrest : List RProc) : RRState :=
  let amount := min h.remaining q
  let stop := s.clock + amount
  ⟨qrest ++ s.future.filter (fun r => decide (pArr r ≤ stop)) ++
      (if 0 < h.remaining - amount then [⟨h.proc, h.remaining - amount⟩] else []),
    s.future.filter (fun r => decide (¬ pArr r ≤ stop)), stop,
    s.acc ++ [{ h.proc with burst_time := amount }]⟩

/-- Modelled from the spec: the round-robin loop (spec 4.4), fuel-driven.
If the queue is empty the arrived processes join it (advancing the clock
when needed); otherwise the head runs for one quantum-bounded slice. -/
def rrLoop (q : Int) : Nat → RRState → RRState
  | 0, s => s
  | f + 1, s =>
    match s.queue with
    | [] =>
      match s.future with
      | [] => s
      | r0 :: rest => rrLoop q f (rrArrive s r0 rest)
    | h :: qrest => rrLoop q f (rrRun q s h qrest)

/-- Modelled from the spec: the `roundRobin` strategy module
(`@/lib/RoundRobin`) is not among the sources at hand. Spec 4.4: ready
queue ordered by arrival (ties by id), fixed quantum, decision entries of
`(process, amount run)`; the fuel bound covers one step per arrival batch
plus one step per unit of total burst time. -/
def roundRobin (processes : List Process) (q : Int) : List Process :=
  (rrLoop q (processes.length + (processes.map (fun p => p.burst_time.toNat)).sum + 1)
    ⟨[], (List.insertionSort fcfsLE processes).map toRP, 0, []⟩).acc

/-- Key triple for the preemptive selection loops: strategy key, then
arrival time, then id. -/
def pKeyOf (key : RProc → Int) (r : RProc) : Int × Int × Int :=
  (key r, r.proc.arrival_time, r.proc.process_id)

/-- State of the event-driven preemptive simulation loops: runtime
processes, clock, decision sequence accumulated so far. -/
structure PState where
  procs : List RProc
  clock : Int
  acc : List Process
deriving DecidableEq, Repr

/-- Moment at which a segment starting at `t` ends: completion of the
running process, or the earliest later arrival, whichever is first. -/
def stopOf (t rem : Int) (later : List RProc) : Int :=
  match later with
  | [] => t + rem
  | b0 :: brest => min (t + rem) (foldMin pArr (pArr b0) brest)

/-- Decision entry emitted by the preemptive loops for a segment of the
chosen process from `t` to `stop`: with its absolute start time when
`stamp` is set, with the original arrival time otherwise. -/
def pEntry (stamp : Bool) (chosen : RProc) (t stop : Int) : Process :=
  if stamp then { chosen.proc with arrival_time := t, burst_time := stop - t }
  else { chosen.proc with burst_time := stop - t }

/-- One decision step of the preemptive loops: the chosen ready process
runs from the decision point until its completion or the next arrival,
its remaining time is decreased by the amount run, and the segment is
recorded. -/
def pStep (stamp : Bool) (s : PState) (chosen : RProc) : PState :=
  let active := s.procs.filter (fun r => decide (0 < r.remaining))
  let t := nextFree pArr s.clock active
  let stop := stopOf t chosen.remaining (active.filter (fun r => decide (t < pArr r)))
  ⟨s.procs.map (fun r =>
      if r.proc.process_id = chosen.proc.process_id then
        { r with remaining := r.remaining - (stop - t) }
      else r),
    stop, s.acc ++ [pEntry stamp chosen t stop]⟩

/-- Modelled from the spec: shared control loop of the preemptive
event-driven strategies (spec 4.5 and 4.7), fuel-driven. At every decision
point: advance the clock to the next arrival if nobody is ready, pick the
ready process with the smallest key (tie: arrival, then id), and take the
step of `pStep`. When `stamp` is set the emitted slices carry absolute
start times (spec 4.7), otherwise original arrival times are kept for the
Assembler (spec 4.5). -/
def pLoop (key : RProc → Int) (stamp : Bool) : Nat → PState → PState
  | 0, s => s
  | f + 1, s =>
    let active := s.procs.filter (fun r => decide (0 < r.remaining))
    match chooseMin (pKeyOf key)
        (active.filter (fun r => decide (pArr r ≤ nextFree pArr s.clock active))) with
    | none => s
    | some chosen => pLoop key stamp f (pStep stamp s chosen)

/-- Modelled from the spec: the `shortestRemainingTimeFirst` strategy
module (`@/lib/ShortestRemainingTimeFirst`) is not among the sources at
hand. Spec 4.5: preemptive, selection key is the remaining time; the
decision entries keep the original arrival time for the Assembler. -/
def shortestRemainingTimeFirst (processes : List Process) : List Process :=
  (pLoop RProc.remaining false (2 * processes.length + 1)
    ⟨processes.map toRP, 0, []⟩).acc

/-- Modelled from the spec: the `preemptivePriority` strategy module
(`@/lib/PriorityPreemptive`) is not among the sources at hand. Spec 4.7:
fully preemptive on priority (lower is more urgent); it stamps absolute
start times itself, so its output is already a timeline. -/
def preemptivePriority (processes : List Process) : List Process :=
  (pLoop (fun r => r.proc.priority.getD 0) true (2 * processes.length + 1)
    ⟨processes.map toRP, 0, []⟩).acc

/-- Quantum validation of the form schema, from the source (`FormSchema`):
the quantum field is optional and, when supplied, must be at most 100; the
schema imposes no lower bound and does not require the field. -/
def formSchemaQuantumOk (q : Option Int) : Bool :=
  match q with
  | none => true
  | some v => decide (v ≤ 100)

/-- Dispatch on the submitted algorithm value, from the source
(`onSubmit`, step 1): the six recognized case labels call the matching
strategy, any other value leaves the raw sequence empty. The quantum is
used only by the round-robin branch and defaults to 0 when absent. -/
def computeRaw (processes : List Process) (alg : String) (q : Option Int) : List Process :=
  if alg = "fCFS" then firstComeFirstServe processes
  else if alg = "SJF" then shortestJobFirst processes
  else if alg = "RR" then roundRobin processes (q.getD 0)
  else if alg = "SRTF" then shortestRemainingTimeFirst processes
  else if alg = "NPPS" then nonPreemptivePriority processes
  else if alg = "PPS" then preemptivePriority processes
  else []

/-- Non-preemptive assembly pass, from the source (`onSubmit`, step 2,
else branch): walk the raw sequence with a clock starting at the given
value; each entry starts at `max(clock, arrival_time)` and the clock
becomes that start plus the entry's burst. -/
def assembleFrom (c : Int) : List Process → List Process
  | [] => []
  | p :: rest =>
    { p with arrival_time := max c p.arrival_time } ::
      assembleFrom (max c p.arrival_time + p.burst_time) rest

/-- Assembly starting from clock 0, from the source (`onSubmit`:
`let currentTime = 0`). -/
def assemble (raw : List Process) : List Process :=
  assembleFrom 0 raw

/-- Preemptive-priority assembly pass, from the source (`onSubmit`, step
2, isPreemptive branch): each slice is pushed unchanged. -/
def assemblePPS : List Process → List Process
  | [] => []
  | s :: rest => s :: assemblePPS rest

/-- Timeline construction, from the source (`onSubmit`, step 2): the
preemptive-priority output is passed through, every other raw sequence is
assembled with the clock rule. -/
def buildTimeline (processes : List Process) (alg : String) (q : Option Int) : List Process :=
  if alg = "PPS" then assemblePPS (computeRaw processes alg q)
  else assemble (computeRaw processes alg q)

/-- Component state relevant to a submission, from the source
(`MainForm`): the process list and the currently displayed timeline. -/
structure SimState where
  processes : List Process
  timeline : List Process
deriving DecidableEq, Repr

/-- Toast message raised on an empty process list, from the source. -/
def emptyInputToast : String := "No processes added!"

/-- The submission handler, from the source (`onSubmit`): an empty
process list raises the blocking toast and leaves the state untouched;
otherwise the timeline state is replaced by the assembled timeline and no
message is raised. -/
def onSubmit (s : SimState) (alg : String) (q : Option Int) : SimState × Option String :=
  if s.processes = [] then (s, some emptyInputToast)
  else ({ s with timeline := buildTimeline s.processes alg q }, none)

/-- Result rendering guard, from the source (`MainForm`, the Results
block): the chart and summary render only when the timeline is
nonempty. -/
def resultsRendered (s : SimState) : Bool :=
  decide (0 < s.timeline.length)

/-- End of an execution slice in an assembled timeline, where
`arrival_time` holds the actual start time. -/
def sliceEnd (e : Process) : Int := e.arrival_time + e.burst_time

/-- Modelled from the spec: the metrics calculator (`SummaryTable`) is
not among the sources at hand. Spec 4.9 and 3: the completion time of a
process is the end of its last timeline slice; over the max-fold this is
the largest end among its slices (0 when it has none). -/
def completionTime (tl : List Process) (i : Int) : Int :=
  tl.foldr (fun e m => if e.process_id = i then max (sliceEnd e) m else m) 0

/-- Modelled from the spec: turnaround time is completion time minus
arrival time (spec 3). -/
def turnaroundTime (tl : List Process) (p : Process) : Int :=
  completionTime tl p.process_id - p.arrival_time

/-- Modelled from the spec: waiting time is turnaround time minus burst
time (spec 3). -/
def waitingTime (tl : List Process) (p : Process) : Int :=
  turnaroundTime tl p - p.burst_time

/-- Modelled from the spec: the per-process metrics handed to the summary
components. -/
def metricsOf (tl : List Process) (processes : List Process) : List (Int × Int) :=
  processes.map (fun p => (waitingTime tl p, turnaroundTime tl p))

/-- The six recognized algorithm case labels of the source dispatch. -/
def algorithms : List String := ["fCFS", "SJF", "RR", "SRTF", "NPPS", "PPS"]

/-- Valid input per the external interface contract (spec 6): a nonempty
process list with unique ids, nonnegative arrivals and positive bursts; a
quantum in (0, 100] when round robin is requested; priorities present when
a priority strategy is requested. -/
def ValidInput (processes : List Process) (alg : String) (q : Option Int) : Prop :=
  processes ≠ [] ∧
  processes.Pairwise (fun a b => a.process_id ≠ b.process_id) ∧
  (∀ p ∈ processes, 0 ≤ p.arrival_time ∧ 0 < p.burst_time) ∧
  (alg = "RR" → match q with
    | some v => 0 < v ∧ v ≤ 100
    | none => False) ∧
  ((alg = "NPPS" ∨ alg = "PPS") → ∀ p ∈ processes, p.priority.isSome)

instance instDecidableValidInput (processes : List Process) (alg : String)
    (q : Option Int) : Decidable (ValidInput processes alg q) := by
  unfold ValidInput
  cases q with
  | none => exact inferInstance
  | some v => exact inferInstance

/-- Clock value reached by the assembly pass after consuming a list of
raw entries, starting from `c`. -/
def clockFrom (c : Int) : List Process → Int
  | [] => c
  | p :: rest => clockFrom (max c p.arrival_time + p.burst_time) rest

/-- Test selecting the decision entries of one process id. -/
def isId (i : Int) (e : Process) : Bool := decide (e.process_id = i)

/-- Total amount of burst time recorded for one process id in a decision
sequence or timeline. -/
def sumB (i : Int) (l : List Process) : Int :=
  ((l.filter (isId i)).map Process.burst_time).sum

/-- Test selecting the runtime entries of one process id. -/
def rpIs (i : Int) (r : RProc) : Bool := decide (r.proc.process_id = i)

/-- Total remaining time held by one process id in a runtime list. -/
def remSum (i : Int) (l : List RProc) : Int :=
  ((l.filter (rpIs i)).map RProc.remaining).sum

/-- Total remaining time of a runtime list, as a natural number; the
termination measure of the fuel loops decreases along it. -/
def remNat (l : List RProc) : Nat :=
  (l.map (fun r => r.remaining.toNat)).sum

/-- Distinctness of process ids in a process list. -/
def UniqP (l : List Process) : Prop :=
  l.Pairwise (fun a b => a.process_id ≠ b.process_id)

/-- Distinctness of process ids in a runtime list. -/
def UniqRP (l : List RProc) : Prop :=
  l.Pairwise (fun a b => a.proc.process_id ≠ b.proc.process_id)

/-- Ordering relation of an assembled timeline: each slice ends no later
than the next one starts. -/
def SliceLE (a b : Process) : Prop := sliceEnd a ≤ b.arrival_time

/-- Invariant of the preemptive loops, tracked for one target input
process `p`: unique ids; every runtime entry carrying the target id is
the target process with nonnegative remaining time; the recorded amounts
plus the remaining time conserve the target burst; recorded amounts are
positive; the clock is nonnegative; and, for the stamping variant, every
recorded slice ends by the clock, the recorded slices are ordered, and
the completion time of the target dominates its recorded amounts, while
the non-stamping variant preserves original arrival times. -/
structure PLoopInv (p : Process) (stamp : Bool) (s : PState) : Prop where
  uniq : UniqRP s.procs
  tgt : ∀ r ∈ s.procs, r.proc.process_id = p.process_id → r.proc = p
  nonneg : ∀ r ∈ s.procs, 0 ≤ r.remaining
  conserve : sumB p.process_id s.acc + remSum p.process_id s.procs = p.burst_time
  accPos : ∀ e ∈ s.acc, 0 < e.burst_time
  clock0 : 0 ≤ s.clock
  ends : stamp = true → ∀ e ∈ s.acc, sliceEnd e ≤ s.clock
  comp : stamp = true →
    (p.arrival_time + sumB p.process_id s.acc ≤ completionTime s.acc p.process_id ∨
      sumB p.process_id s.acc = 0)
  chain : stamp = true → List.Chain' SliceLE s.acc
  accArr : stamp = false →
    ∀ e ∈ s.acc, e.process_id = p.process_id → e.arrival_time = p.arrival_time

/-- Termination measure of the preemptive loops: number of uncompleted
runtime entries plus number of entries that have not yet arrived. -/
def pMeasure (s : PState) : Nat :=
  s.procs.countP (fun r => decide (0 < r.remaining)) +
    s.procs.countP (fun r => decide (s.clock < pArr r))

/-- Invariant of the round-robin loop, tracked for one target input
process `p`: positive remaining times in the queue and the future list;
entries carrying the target id are the target process; the recorded
amounts plus the remaining time conserve the target burst; recorded
amounts are positive and keep their original arrival times. -/
structure RRInv (p : Process) (s : RRState) : Prop where
  pos : ∀ r ∈ s.queue ++ s.future, 0 < r.remaining
  tgt : ∀ r ∈ s.queue ++ s.future, r.proc.process_id = p.process_id → r.proc = p
  conserve : sumB p.process_id s.acc + remSum p.process_id (s.queue ++ s.future) = p.burst_time
  accPos : ∀ e ∈ s.acc, 0 < e.burst_time
  accArr : ∀ e ∈ s.acc, e.process_id = p.process_id → e.arrival_time = p.arrival_time

/-- Termination measure of the round-robin loop: pending arrivals plus
total remaining time. -/
def rrMeasure (s : RRState) : Nat :=
  s.future.length + remNat (s.queue ++ s.future)

/-- Slice the assembler rule predicts for the i-th raw entry: the entry
with its arrival time replaced by max(clock before entry i, arrival),
with the clock starting at 0. -/
def assembledSlice (raw : List Process) (i : Nat) (e : Process) : Process :=
  { e with arrival_time := max (clockFrom 0 (raw.take i)) e.arrival_time }

/-- Scenario 1 of spec 8: FCFS on P1(0,5), P2(1,3), P3(2,1) runs them in
order with starts 0, 5, 8. -/
example :
    buildTimeline
        [⟨1, 0, 5, "", none⟩, ⟨2, 1, 3, "", none⟩, ⟨3, 2, 1, "", none⟩]
        "fCFS" none =
      [⟨1, 0, 5, "", none⟩, ⟨2, 5, 3, "", none⟩, ⟨3, 8, 1, "", none⟩] := by
  decide

/-- Scenario 2 of spec 8: SJF on the same input runs P1, P3, P2 with
starts 0, 5, 6. -/
example :
    buildTimeline
        [⟨1, 0, 5, "", none⟩, ⟨2, 1, 3, "", none⟩, ⟨3, 2, 1, "", none⟩]
        "SJF" none =
      [⟨1, 0, 5, "", none⟩, ⟨3, 5, 1, "", none⟩, ⟨2, 6, 3, "", none⟩] := by
  decide

/-- Scenario 3 of spec 8: round robin with quantum 2 on P1(0,5), P2(0,3)
gives slices P1[0,2), P2[2,4), P1[4,6), P2[6,7), P1[7,8). -/
example :
    buildTimeline [⟨1, 0, 5, "", none⟩, ⟨2, 0, 3, "", none⟩] "RR" (some 2) =
      [⟨1, 0, 2, "", none⟩, ⟨2, 2, 2, "", none⟩, ⟨1, 4, 2, "", none⟩,
        ⟨2, 6, 1, "", none⟩, ⟨1, 7, 1, "", none⟩] := by
  decide

/-- Scenario 4 of spec 8: preemptive priority on P1(0,4,prio 2),
P2(2,2,prio 1): P1 runs 0 to 2, P2 preempts and runs 2 to 4, P1 resumes
4 to 6. -/
example :
    buildTimeline [⟨1, 0, 4, "", some 2⟩, ⟨2, 2, 2, "", some 1⟩] "PPS" none =
      [⟨1, 0, 2, "", some 2⟩, ⟨2, 2, 2, "", some 1⟩, ⟨1, 4, 2, "", some 2⟩] := by
  decide

/-- Waiting times of scenario 3: P1 waits 3 and P2 waits 4. -/
example :
    metricsOf (buildTimeline [⟨1, 0, 5, "", none⟩, ⟨2, 0, 3, "", none⟩] "RR" (some 2))
        [⟨1, 0, 5, "", none⟩, ⟨2, 0, 3, "", none⟩] =
      [(3, 8), (4, 7)] := by
  decide

theorem foldMin_le_init (f : α → Int) : ∀ (l : List α) (a : Int), foldMin f a l ≤ a := by
  intro l
  induction l with
  | nil => intro a; exact le_refl a
  | cons x xs ih =>
    intro a
    have h1 : foldMin f a (x :: xs) = foldMin f (min a (f x)) xs := rfl
    have h2 := ih (min a (f x))
    rw [h1]
    omega

theorem foldMin_choice (f : α → Int) :
    ∀ (l : List α) (a : Int), foldMin f a l = a ∨ ∃ x ∈ l, foldMin f a l = f x := by
  intro l
  induction l with
  | nil => intro a; exact Or.inl rfl
  | cons x xs ih =>
    intro a
    have h1 : foldMin f a (x :: xs) = foldMin f (min a (f x)) xs := rfl
    rcases ih (min a (f x)) with h | ⟨y, hy, h⟩
    · rcases le_total a (f x) with hle | hle
      · left; rw [h1, h]; omega
      · right
        refine ⟨x, List.mem_cons_self x xs, ?_⟩
        rw [h1, h]; omega
    · right; exact ⟨y, List.mem_cons_of_mem x hy, by rw [h1, h]⟩

theorem selMin_mem (k : α → Int × Int × Int) :
    ∀ (l : List α) (d : α), selMin k d l = d ∨ selMin k d l ∈ l := by
  intro l
  induction l with
  | nil => intro d; exact Or.inl rfl
  | cons x xs ih =>
    intro d
    have hdef : selMin k d (x :: xs) =
        if lexLT (k x) (k d) then selMin k x xs else selMin k d xs := rfl
    by_cases h : lexLT (k x) (k d)
    · rw [hdef, if_pos h]
      rcases ih x with h2 | h2
      · right
        rw [h2]
        exact List.mem_cons_self x xs
      · exact Or.inr (List.mem_cons_of_mem x h2)
    · rw [hdef, if_neg h]
      rcases ih d with h2 | h2
      · exact Or.inl h2
      · exact Or.inr (List.mem_cons_of_mem x h2)

theorem chooseMin_mem {k : α → Int × Int × Int} :
    ∀ {l : List α} {c : α}, chooseMin k l = some c → c ∈ l := by
  intro l c h
  match l, h with
  | x :: xs, h =>
    have hc : selMin k x xs = c := by
      have : some (selMin k x xs) = some c := h
      exact Option.some.inj this
    rcases selMin_mem k xs x with h2 | h2
    · rw [← hc, h2]; exact List.mem_cons_self x xs
    · rw [← hc]; exact List.mem_cons_of_mem x h2

theorem chooseMin_of_ne_nil {k : α → Int × Int × Int} {l : List α} (h : l ≠ []) :
    ∃ c, chooseMin k l = some c := by
  match l, h with
  | x :: xs, _ => exact ⟨selMin k x xs, rfl⟩

theorem nextFree_ge (arr : α → Int) (clock : Int) (l : List α) :
    clock ≤ nextFree arr clock l := by
  unfold nextFree
  cases hf : l.filter (fun x => decide (arr x ≤ clock)) with
  | cons y ys => exact le_refl clock
  | nil =>
    cases l with
    | nil => exact le_refl clock
    | cons x xs => exact le_max_left _ _

theorem nextFree_ready (arr : α → Int) (clock : Int) {l : List α} (h : l ≠ []) :
    l.filter (fun x => decide (arr x ≤ nextFree arr clock l)) ≠ [] := by
  unfold nextFree
  cases hf : l.filter (fun x => decide (arr x ≤ clock)) with
  | cons y ys =>
    intro hcon
    have hy : y ∈ l.filter (fun x => decide (arr x ≤ clock)) := by
      rw [hf]; exact List.mem_cons_self y ys
    have hy2 := List.mem_filter.mp hy
    have : y ∈ l.filter (fun x => decide (arr x ≤ clock)) := hy
    have hmem : y ∈ l := hy2.1
    have : y ∈ ([] : List α) := by
      rw [← hcon]
      exact List.mem_filter.mpr ⟨hmem, hy2.2⟩
    exact absurd this (List.not_mem_nil y)
  | nil =>
    match l, h with
    | x :: xs, _ =>
      have hch := foldMin_choice arr xs (arr x)
      have hne : ∃ w ∈ x :: xs, arr w = foldMin arr (arr x) xs := by
        rcases hch with h2 | ⟨y, hy, h2⟩
        · exact ⟨x, List.mem_cons_self x xs, h2.symm⟩
        · exact ⟨y, List.mem_cons_of_mem x hy, h2.symm⟩
      rcases hne with ⟨w, hw, hweq⟩
      intro hcon
      have : w ∈ (x :: xs).filter
          (fun z => decide (arr z ≤ max clock (foldMin arr (arr x) xs))) := by
        refine List.mem_filter.mpr ⟨hw, ?_⟩
        have : arr w ≤ max clock (foldMin arr (arr x) xs) := by
          rw [hweq]; omega
        exact decide_eq_true this
      rw [hcon] at this
      exact absurd this (List.not_mem_nil w)

theorem sumB_nil (i : Int) : sumB i [] = 0 := rfl

theorem sumB_cons (i : Int) (e : Process) (l : List Process) :
    sumB i (e :: l) = (if e.process_id = i then e.burst_time else 0) + sumB i l := by
  unfold sumB isId
  by_cases h : e.process_id = i
  · simp [List.filter_cons, h]
  · simp [List.filter_cons, h]

theorem sumB_append (i : Int) (l1 l2 : List Process) :
    sumB i (l1 ++ l2) = sumB i l1 + sumB i l2 := by
  unfold sumB
  rw [List.filter_append, List.map_append, List.sum_append]

theorem sumB_perm (i : Int) {l1 l2 : List Process} (h : l1.Perm l2) :
    sumB i l1 = sumB i l2 := by
  unfold sumB
  exact ((h.filter _).map _).sum_eq

theorem sumB_zero (i : Int) {l : List Process} (h : ∀ e ∈ l, e.process_id ≠ i) :
    sumB i l = 0 := by
  induction l with
  | nil => rfl
  | cons e es ih =>
    rw [sumB_cons, if_neg (h e (List.mem_cons_self e es))]
    have := ih (fun x hx => h x (List.mem_cons_of_mem e hx))
    omega

theorem exists_of_sumB_ne_zero {i : Int} {l : List Process} (h : sumB i l ≠ 0) :
    ∃ e ∈ l, e.process_id = i := by
  by_contra hcon
  push_neg at hcon
  exact h (sumB_zero i hcon)

theorem remSum_nil (i : Int) : remSum i [] = 0 := rfl

theorem remSum_cons (i : Int) (r : RProc) (l : List RProc) :
    remSum i (r :: l) =
      (if r.proc.process_id = i then r.remaining else 0) + remSum i l := by
  unfold remSum rpIs
  by_cases h : r.proc.process_id = i
  · simp [List.filter_cons, h]
  · simp [List.filter_cons, h]

theorem remSum_append (i : Int) (l1 l2 : List RProc) :
    remSum i (l1 ++ l2) = remSum i l1 + remSum i l2 := by
  unfold remSum
  rw [List.filter_append, List.map_append, List.sum_append]

theorem remSum_perm (i : Int) {l1 l2 : List RProc} (h : l1.Perm l2) :
    remSum i l1 = remSum i l2 := by
  unfold remSum
  exact ((h.filter _).map _).sum_eq

theorem remSum_zero_of_done (i : Int) {l : List RProc} (h : ∀ r ∈ l, r.remaining = 0) :
    remSum i l = 0 := by
  induction l with
  | nil => rfl
  | cons r rs ih =>
    rw [remSum_cons, h r (List.mem_cons_self r rs)]
    have := ih (fun x hx => h x (List.mem_cons_of_mem r hx))
    simp [this]

theorem remSum_map_toRP (i : Int) (l : List Process) :
    remSum i (l.map toRP) = sumB i l := by
  induction l with
  | nil => rfl
  | cons e es ih =>
    rw [List.map_cons, remSum_cons, sumB_cons, ih]
    rfl

theorem remNat_append (l1 l2 : List RProc) :
    remNat (l1 ++ l2) = remNat l1 + remNat l2 := by
  unfold remNat
  rw [List.map_append, List.sum_append]

theorem remNat_perm {l1 l2 : List RProc} (h : l1.Perm l2) : remNat l1 = remNat l2 := by
  unfold remNat
  exact (h.map _).sum_eq

theorem remNat_cons (r : RProc) (l : List RProc) :
    remNat (r :: l) = r.remaining.toNat + remNat l := rfl

theorem completionTime_nil (i : Int) : completionTime [] i = 0 := rfl

theorem completionTime_cons (e : Process) (tl : List Process) (i : Int) :
    completionTime (e :: tl) i =
      if e.process_id = i then max (sliceEnd e) (completionTime tl i)
      else completionTime tl i := rfl

theorem completionTime_nonneg (tl : List Process) (i : Int) :
    0 ≤ completionTime tl i := by
  induction tl with
  | nil => exact le_refl 0
  | cons e es ih =>
    rw [completionTime_cons]
    by_cases h : e.process_id = i
    · rw [if_pos h]; omega
    · rw [if_neg h]; exact ih

theorem completionTime_le {tl : List Process} {c : Int} (hc : 0 ≤ c)
    (h : ∀ e ∈ tl, sliceEnd e ≤ c) (i : Int) : completionTime tl i ≤ c := by
  induction tl with
  | nil => exact hc
  | cons e es ih =>
    rw [completionTime_cons]
    have h1 := h e (List.mem_cons_self e es)
    have h2 := ih (fun x hx => h x (List.mem_cons_of_mem e hx))
    by_cases heq : e.process_id = i
    · rw [if_pos heq]; omega
    · rw [if_neg heq]; exact h2

theorem completionTime_append_ne {e : Process} {i : Int} (h : e.process_id ≠ i)
    (l : List Process) : completionTime (l ++ [e]) i = completionTime l i := by
  induction l with
  | nil =>
    rw [List.nil_append, completionTime_cons, if_neg h, completionTime_nil]
  | cons x xs ih =>
    rw [List.cons_append, completionTime_cons, completionTime_cons, ih]

theorem sliceEnd_le_completionTime_append {e : Process} {i : Int}
    (h : e.process_id = i) (l : List Process) :
    sliceEnd e ≤ completionTime (l ++ [e]) i := by
  induction l with
  | nil =>
    rw [List.nil_append, completionTime_cons, if_pos h, completionTime_nil]
    omega
  | cons x xs ih =>
    rw [List.cons_append, completionTime_cons]
    by_cases heq : x.process_id = i
    · rw [if_pos heq]; omega
    · rw [if_neg heq]; exact ih

theorem countP_map_le {l : List α} {f : α → α} {p q : α → Bool}
    (h : ∀ x ∈ l, q (f x) = true → p x = true) :
    (l.map f).countP q ≤ l.countP p := by
  induction l with
  | nil => exact Nat.le_refl 0
  | cons x xs ih =>
    rw [List.map_cons]
    have h1 := ih (fun y hy => h y (List.mem_cons_of_mem x hy))
    by_cases hq : q (f x) = true
    · have hp := h x (List.mem_cons_self x xs) hq
      rw [List.countP_cons_of_pos _ _ hq, List.countP_cons_of_pos _ _ hp]
      omega
    · rw [List.countP_cons_of_neg _ _ hq]
      by_cases hp : p x = true
      · rw [List.countP_cons_of_pos _ _ hp]; omega
      · rw [List.countP_cons_of_neg _ _ hp]; omega

theorem countP_map_lt {l : List α} {f : α → α} {p q : α → Bool}
    (h : ∀ x ∈ l, q (f x) = true → p x = true)
    (hw : ∃ x ∈ l, p x = true ∧ q (f x) = false) :
    (l.map f).countP q < l.countP p := by
  induction l with
  | nil =>
    rcases hw with ⟨x, hx, _⟩
    exact absurd hx (List.not_mem_nil x)
  | cons x xs ih =>
    rw [List.map_cons]
    rcases hw with ⟨w, hwm, hwp, hwq⟩
    rcases List.mem_cons.mp hwm with hwx | hwxs
    · subst hwx
      have hqn : ¬ q (f w) = true := by rw [hwq]; exact Bool.false_ne_true
      rw [List.countP_cons_of_neg _ _ hqn, List.countP_cons_of_pos _ _ hwp]
      have := countP_map_le (fun y hy => h y (List.mem_cons_of_mem w hy))
      omega
    · have hlt := ih (fun y hy => h y (List.mem_cons_of_mem x hy)) ⟨w, hwxs, hwp, hwq⟩
      by_cases hq : q (f x) = true
      · have hp := h x (List.mem_cons_self x xs) hq
        rw [List.countP_cons_of_pos _ _ hq, List.countP_cons_of_pos _ _ hp]
        omega
      · rw [List.countP_cons_of_neg _ _ hq]
        by_cases hp : p x = true
        · rw [List.countP_cons_of_pos _ _ hp]; omega
        · rw [List.countP_cons_of_neg _ _ hp]; omega

theorem uniqP_eq {l : List Process} (hu : UniqP l) {p e : Process}
    (hp : p ∈ l) (he : e ∈ l) (h : e.process_id = p.process_id) : e = p := by
  induction l with
  | nil => exact absurd hp (List.not_mem_nil p)
  | cons x xs ih =>
    rcases List.pairwise_cons.mp hu with ⟨hx, hxs⟩
    rcases List.mem_cons.mp hp with hp1 | hp1 <;>
      rcases List.mem_cons.mp he with he1 | he1
    · rw [he1, hp1]
    · subst hp1
      exact absurd h.symm (hx e he1)
    · subst he1
      exact absurd h (hx p hp1)
    · exact ih hxs hp1 he1

theorem uniqP_filter {l : List Process} (hu : UniqP l) {p : Process} (hp : p ∈ l) :
    l.filter (isId p.process_id) = [p] := by
  induction l with
  | nil => exact absurd hp (List.not_mem_nil p)
  | cons x xs ih =>
    rcases List.pairwise_cons.mp hu with ⟨hx, hxs⟩
    rcases List.mem_cons.mp hp with hp1 | hp1
    · subst hp1
      rw [List.filter_cons]
      have hid : isId p.process_id p = true := by
        unfold isId
        exact decide_eq_true rfl
      rw [if_pos hid]
      have : xs.filter (isId p.process_id) = [] := by
        rw [List.filter_eq_nil_iff]
        intro a ha
        unfold isId
        simp only [decide_eq_true_eq]
        exact fun hcon => hx a ha hcon.symm
      rw [this]
    · rw [List.filter_cons]
      have hid : isId p.process_id x = false := by
        unfold isId
        simp only [decide_eq_false_iff_not]
        exact hx p hp1
      rw [if_neg (by rw [hid]; exact Bool.false_ne_true)]
      exact ih hxs hp1

theorem uniqRP_eq {l : List RProc} (hu : UniqRP l) {c r : RProc}
    (hc : c ∈ l) (hr : r ∈ l) (h : r.proc.process_id = c.proc.process_id) : r = c := by
  induction l with
  | nil => exact absurd hc (List.not_mem_nil c)
  | cons x xs ih =>
    rcases List.pairwise_cons.mp hu with ⟨hx, hxs⟩
    rcases List.mem_cons.mp hc with hc1 | hc1 <;>
      rcases List.mem_cons.mp hr with hr1 | hr1
    · rw [hr1, hc1]
    · subst hc1
      exact absurd h.symm (hx r hr1)
    · subst hr1
      exact absurd h (hx c hc1)
    · exact ih hxs hc1 hr1

theorem uniqRP_filter {l : List RProc} (hu : UniqRP l) {c : RProc} (hc : c ∈ l) :
    l.filter (rpIs c.proc.process_id) = [c] := by
  induction l with
  | nil => exact absurd hc (List.not_mem_nil c)
  | cons x xs ih =>
    rcases List.pairwise_cons.mp hu with ⟨hx, hxs⟩
    rcases List.mem_cons.mp hc with hc1 | hc1
    · subst hc1
      rw [List.filter_cons]
      have hid : rpIs c.proc.process_id c = true := by
        unfold rpIs
        exact decide_eq_true rfl
      rw [if_pos hid]
      have : xs.filter (rpIs c.proc.process_id) = [] := by
        rw [List.filter_eq_nil_iff]
        intro a ha
        unfold rpIs
        simp only [decide_eq_true_eq]
        exact fun hcon => hx a ha hcon.symm
      rw [this]
    · rw [List.filter_cons]
      have hid : rpIs c.proc.process_id x = false := by
        unfold rpIs
        simp only [decide_eq_false_iff_not]
        exact hx c hc1
      rw [if_neg (by rw [hid]; exact Bool.false_ne_true)]
      exact ih hxs hc1

theorem filter_rpIs_map {f : RProc → RProc}
    (hf : ∀ r, (f r).proc.process_id = r.proc.process_id) (i : Int) (l : List RProc) :
    (l.map f).filter (rpIs i) = (l.filter (rpIs i)).map f := by
  induction l with
  | nil => rfl
  | cons x xs ih =>
    rw [List.map_cons, List.filter_cons, List.filter_cons]
    have heq : rpIs i (f x) = rpIs i x := by
      unfold rpIs
      rw [hf x]
    rw [heq]
    by_cases h : rpIs i x = true
    · rw [if_pos h, if_pos h, List.map_cons, ih]
    · rw [if_neg h, if_neg h, ih]

theorem uniqRP_map {l : List RProc} (hu : UniqRP l) {f : RProc → RProc}
    (hf : ∀ r, (f r).proc.process_id = r.proc.process_id) : UniqRP (l.map f) := by
  unfold UniqRP
  rw [List.pairwise_map]
  exact hu.imp (fun {a b} h => by rw [hf a, hf b]; exact h)

theorem assembleFrom_length : ∀ (raw : List Process) (c : Int),
    (assembleFrom c raw).length = raw.length := by
  intro raw
  induction raw with
  | nil => intro c; rfl
  | cons e rest ih =>
    intro c
    show (_ :: assembleFrom _ rest).length = _
    rw [List.length_cons, List.length_cons, ih]

theorem assembleFrom_getElem? : ∀ (raw : List Process) (c : Int) (i : Nat) (p : Process),
    raw[i]? = some p →
    (assembleFrom c raw)[i]? =
      some { p with arrival_time := max (clockFrom c (raw.take i)) p.arrival_time } := by
  intro raw
  induction raw with
  | nil =>
    intro c i p h
    simp at h
  | cons e rest ih =>
    intro c i p h
    cases i with
    | zero =>
      have hp : p = e := by
        rw [List.getElem?_cons_zero] at h
        exact (Option.some.inj h).symm
      subst hp
      have hshape : assembleFrom c (p :: rest) =
          { p with arrival_time := max c p.arrival_time } ::
            assembleFrom (max c p.arrival_time + p.burst_time) rest := rfl
      rw [hshape, List.getElem?_cons_zero]
      rfl
    | succ i =>
      rw [List.getElem?_cons_succ] at h
      have hstep : (assembleFrom c (e :: rest))[i + 1]? =
          (assembleFrom (max c e.arrival_time + e.burst_time) rest)[i]? := by
        show (_ :: assembleFrom _ rest)[i + 1]? = _
        rw [List.getElem?_cons_succ]
      rw [hstep]
      have htake : clockFrom c ((e :: rest).take (i + 1)) =
          clockFrom (max c e.arrival_time + e.burst_time) (rest.take i) := rfl
      rw [htake]
      exact ih (max c e.arrival_time + e.burst_time) i p h

theorem assembleFrom_chain : ∀ (raw : List Process) (c : Int),
    (∀ e ∈ raw, 0 < e.burst_time) →
    List.Chain' SliceLE (assembleFrom c raw) ∧
      ∀ s ∈ assembleFrom c raw, c ≤ s.arrival_time := by
  intro raw
  induction raw with
  | nil => intro c _; exact ⟨List.chain'_nil, fun s hs => absurd hs (List.not_mem_nil s)⟩
  | cons e rest ih =>
    intro c hpos
    have hepos := hpos e (List.mem_cons_self e rest)
    have ihres := ih (max c e.arrival_time + e.burst_time)
      (fun x hx => hpos x (List.mem_cons_of_mem e hx))
    have hshape : assembleFrom c (e :: rest) =
        { e with arrival_time := max c e.arrival_time } ::
          assembleFrom (max c e.arrival_time + e.burst_time) rest := rfl
    rw [hshape]
    constructor
    · rw [List.chain'_cons']
      refine ⟨?_, ihres.1⟩
      intro y hy
      have hmem := List.mem_of_mem_head? hy
      have harr := ihres.2 y hmem
      show sliceEnd _ ≤ y.arrival_time
      have hse : sliceEnd { e with arrival_time := max c e.arrival_time } =
          max c e.arrival_time + e.burst_time := rfl
      rw [hse]
      exact harr
    · intro s hs
      rcases List.mem_cons.mp hs with hs1 | hs1
      · rw [hs1]
        show c ≤ max c e.arrival_time
        omega
      · have := ihres.2 s hs1
        omega

theorem assembleFrom_pos : ∀ (raw : List Process) (c : Int),
    (∀ e ∈ raw, 0 < e.burst_time) →
    ∀ s ∈ assembleFrom c raw, 0 < s.burst_time := by
  intro raw
  induction raw with
  | nil => intro c _ s hs; exact absurd hs (List.not_mem_nil s)
  | cons e rest ih =>
    intro c hpos s hs
    have hshape : assembleFrom c (e :: rest) =
        { e with arrival_time := max c e.arrival_time } ::
          assembleFrom (max c e.arrival_time + e.burst_time) rest := rfl
    rw [hshape] at hs
    rcases List.mem_cons.mp hs with hs1 | hs1
    · rw [hs1]
      exact hpos e (List.mem_cons_self e rest)
    · exact ih _ (fun x hx => hpos x (List.mem_cons_of_mem e hx)) s hs1

theorem assembleFrom_completion : ∀ (raw : List Process) (c A : Int) (i : Int),
    (∀ e ∈ raw, 0 ≤ e.burst_time) →
    (∀ e ∈ raw, e.process_id = i → e.arrival_time = A) →
    (∃ e ∈ raw, e.process_id = i) →
    max A c + sumB i raw ≤ completionTime (assembleFrom c raw) i := by
  intro raw
  induction raw with
  | nil =>
    intro c A i _ _ hex
    rcases hex with ⟨e, he, _⟩
    exact absurd he (List.not_mem_nil e)
  | cons e rest ih =>
    intro c A i hpos harr hex
    have hshape : assembleFrom c (e :: rest) =
        { e with arrival_time := max c e.arrival_time } ::
          assembleFrom (max c e.arrival_time + e.burst_time) rest := rfl
    rw [hshape, completionTime_cons, sumB_cons]
    have hpid_eq : ({ e with arrival_time := max c e.arrival_time } : Process).process_id =
        e.process_id := rfl
    have hse : sliceEnd { e with arrival_time := max c e.arrival_time } =
        max c e.arrival_time + e.burst_time := rfl
    have hepos := hpos e (List.mem_cons_self e rest)
    by_cases hpid : e.process_id = i
    · rw [hpid_eq, if_pos hpid, if_pos hpid, hse]
      have hA := harr e (List.mem_cons_self e rest) hpid
      rw [hA]
      by_cases hrest : ∃ e2 ∈ rest, e2.process_id = i
      · have hih := ih (max c A + e.burst_time) A i
          (fun x hx => hpos x (List.mem_cons_of_mem e hx))
          (fun x hx hx2 => harr x (List.mem_cons_of_mem e hx) hx2) hrest
        omega
      · push_neg at hrest
        have hzero := sumB_zero i hrest
        have hnn := completionTime_nonneg
          (assembleFrom (max c A + e.burst_time) rest) i
        omega
    · rw [hpid_eq, if_neg hpid, if_neg hpid]
      have hrest : ∃ e2 ∈ rest, e2.process_id = i := by
        rcases hex with ⟨w, hw, hwid⟩
        rcases List.mem_cons.mp hw with hw1 | hw1
        · rw [hw1] at hwid; exact absurd hwid hpid
        · exact ⟨w, hw1, hwid⟩
      have hih := ih (max c e.arrival_time + e.burst_time) A i
        (fun x hx => hpos x (List.mem_cons_of_mem e hx))
        (fun x hx hx2 => harr x (List.mem_cons_of_mem e hx) hx2) hrest
      omega

theorem assemblePPS_eq (raw : List Process) : assemblePPS raw = raw := by
  induction raw with
  | nil => rfl
  | cons e rest ih =>
    show e :: assemblePPS rest = e :: rest
    rw [ih]

theorem npLoop_perm (key : Process → Int) :
    ∀ (f : Nat) (pending : List Process) (clock : Int) (acc : List Process),
    pending.length ≤ f →
    ∃ out, npLoop key f pending clock acc = acc ++ out ∧ out.Perm pending := by
  intro f
  induction f with
  | zero =>
    intro pending clock acc h
    have hnil : pending = [] := List.length_eq_zero.mp (Nat.le_zero.mp h)
    subst hnil
    exact ⟨[], by rw [List.append_nil]; rfl, List.Perm.refl []⟩
  | succ f ih =>
    intro pending clock acc h
    cases hch : chooseMin (npKeyOf key)
        (pending.filter (fun e => decide (e.arrival_time ≤
          nextFree Process.arrival_time clock pending))) with
    | none =>
      have hnil : pending = [] := by
        by_contra hne
        have hready := nextFree_ready Process.arrival_time clock hne
        rcases chooseMin_of_ne_nil (k := npKeyOf key) hready with ⟨c, hc⟩
        rw [hch] at hc
        exact Option.noConfusion hc
      subst hnil
      refine ⟨[], ?_, List.Perm.refl []⟩
      rw [List.append_nil]
      simp only [npLoop, hch]
    | some chosen =>
      have hmem : chosen ∈ pending :=
        (List.mem_filter.mp (chooseMin_mem hch)).1
      have hres : npLoop key (f + 1) pending clock acc =
          npLoop key f (pending.erase chosen)
            (nextFree Process.arrival_time clock pending + chosen.burst_time)
            (acc ++ [chosen]) := by
        simp only [npLoop, hch]
      have hlen : (pending.erase chosen).length ≤ f := by
        rw [List.length_erase_of_mem hmem]
        have : 1 ≤ pending.length := List.length_pos.mpr (List.ne_nil_of_mem hmem)
        omega
      rcases ih (pending.erase chosen)
          (nextFree Process.arrival_time clock pending + chosen.burst_time)
          (acc ++ [chosen]) hlen with ⟨out2, heq, hperm⟩
      refine ⟨chosen :: out2, ?_, ?_⟩
      · rw [hres, heq, List.append_assoc, List.singleton_append]
      · exact (hperm.cons chosen).trans (List.perm_cons_erase hmem).symm

theorem fcfs_perm (processes : List Process) :
    (firstComeFirstServe processes).Perm processes :=
  List.perm_insertionSort fcfsLE processes

theorem sjf_perm (processes : List Process) :
    (shortestJobFirst processes).Perm processes := by
  rcases npLoop_perm Process.burst_time processes.length processes 0 []
      (Nat.le_refl _) with ⟨out, heq, hperm⟩
  unfold shortestJobFirst
  rw [heq, List.nil_append]
  exact hperm

theorem npps_perm (processes : List Process) :
    (nonPreemptivePriority processes).Perm processes := by
  rcases npLoop_perm (fun p => p.priority.getD 0) processes.length processes 0 []
      (Nat.le_refl _) with ⟨out, heq, hperm⟩
  unfold nonPreemptivePriority
  rw [heq, List.nil_append]
  exact hperm

theorem perm_raw_facts {procs raw : List Process} (hperm : raw.Perm procs)
    (hu : UniqP procs) (hval : ∀ p ∈ procs, 0 ≤ p.arrival_time ∧ 0 < p.burst_time) :
    (∀ e ∈ raw, 0 < e.burst_time) ∧
      ∀ p ∈ procs,
        (∀ e ∈ raw, e.process_id = p.process_id → e.arrival_time = p.arrival_time) ∧
          sumB p.process_id raw = p.burst_time := by
  constructor
  · intro e he
    exact (hval e (hperm.subset he)).2
  · intro p hp
    constructor
    · intro e he hid
      have he2 : e ∈ procs := hperm.subset he
      rw [uniqP_eq hu hp he2 hid]
    · rw [sumB_perm _ hperm]
      unfold sumB
      rw [uniqP_filter hu hp]
      simp

theorem completion_of_raw_facts {raw : List Process} {p : Process}
    (hpos : ∀ e ∈ raw, 0 < e.burst_time)
    (harr : ∀ e ∈ raw, e.process_id = p.process_id → e.arrival_time = p.arrival_time)
    (hsum : sumB p.process_id raw = p.burst_time)
    (hbpos : 0 < p.burst_time) :
    p.arrival_time + p.burst_time ≤ completionTime (assemble raw) p.process_id := by
  have hex : ∃ e ∈ raw, e.process_id = p.process_id := by
    apply exists_of_sumB_ne_zero
    rw [hsum]
    omega
  have hcomp := assembleFrom_completion raw 0 p.arrival_time p.process_id
    (fun e he => le_of_lt (hpos e he)) harr hex
  unfold assemble
  rw [hsum] at hcomp
  omega

theorem stopOf_le (t rem : Int) (later : List RProc) : stopOf t rem later ≤ t + rem := by
  cases later with
  | nil => exact le_refl _
  | cons b0 brest =>
    show min (t + rem) (foldMin pArr (pArr b0) brest) ≤ t + rem
    omega

theorem stopOf_gt {t rem : Int} {later : List RProc} (hrem : 0 < rem)
    (h : ∀ b ∈ later, t < pArr b) : t < stopOf t rem later := by
  cases later with
  | nil =>
    show t < t + rem
    omega
  | cons b0 brest =>
    show t < min (t + rem) (foldMin pArr (pArr b0) brest)
    have hb0 := h b0 (List.mem_cons_self b0 brest)
    rcases foldMin_choice pArr brest (pArr b0) with hc | ⟨x, hx, hc⟩
    · omega
    · have := h x (List.mem_cons_of_mem b0 hx)
      omega

theorem stopOf_cases (t rem : Int) (later : List RProc) :
    stopOf t rem later = t + rem ∨
      ∃ b ∈ later, pArr b = stopOf t rem later ∧ stopOf t rem later < t + rem := by
  cases later with
  | nil => exact Or.inl rfl
  | cons b0 brest =>
    have hshape : stopOf t rem (b0 :: brest) =
        min (t + rem) (foldMin pArr (pArr b0) brest) := rfl
    rcases lt_or_le (foldMin pArr (pArr b0) brest) (t + rem) with hlt | hle
    · right
      rcases foldMin_choice pArr brest (pArr b0) with hc | ⟨x, hx, hc⟩
      · exact ⟨b0, List.mem_cons_self b0 brest, by rw [hshape]; omega, by rw [hshape]; omega⟩
      · exact ⟨x, List.mem_cons_of_mem b0 hx, by rw [hshape]; omega, by rw [hshape]; omega⟩
    · left
      rw [hshape]
      omega


theorem pEntry_pid (stamp : Bool) (c : RProc) (t stop : Int) :
    (pEntry stamp c t stop).process_id = c.proc.process_id := by
  cases stamp
  · rfl
  · rfl

theorem pEntry_burst (stamp : Bool) (c : RProc) (t stop : Int) :
    (pEntry stamp c t stop).burst_time = stop - t := by
  cases stamp
  · rfl
  · rfl

theorem pEntry_end_true (c : RProc) (t stop : Int) :
    sliceEnd (pEntry true c t stop) = t + (stop - t) := rfl

theorem pEntry_arr_true (c : RProc) (t stop : Int) :
    (pEntry true c t stop).arrival_time = t := rfl

theorem pEntry_arr_false (c : RProc) (t stop : Int) :
    (pEntry false c t stop).arrival_time = c.proc.arrival_time := rfl

theorem pStep_inv {p : Process} {stamp : Bool} {s : PState} {chosen : RProc}
    (hinv : PLoopInv p stamp s)
    (hmem : chosen ∈ s.procs) (hrem : 0 < chosen.remaining)
    (harr : pArr chosen ≤
      nextFree pArr s.clock (s.procs.filter (fun r => decide (0 < r.remaining)))) :
    PLoopInv p stamp (pStep stamp s chosen) ∧
      pMeasure (pStep stamp s chosen) < pMeasure s := by
  classical
  simp only [pStep, pMeasure]
  set active := s.procs.filter (fun r => decide (0 < r.remaining)) with hactive
  set t := nextFree pArr s.clock active with ht
  set later := active.filter (fun r => decide (t < pArr r)) with hlater
  set stop := stopOf t chosen.remaining later with hstopdef
  have h_t_ge : s.clock ≤ t := by
    rw [ht]
    exact nextFree_ge pArr s.clock active
  have h_later_gt : ∀ b ∈ later, t < pArr b := by
    intro b hb
    rw [hlater] at hb
    have := (List.mem_filter.mp hb).2
    exact of_decide_eq_true this
  have h_stop_gt : t < stop := by
    rw [hstopdef]
    exact stopOf_gt hrem h_later_gt
  have h_stop_le : stop ≤ t + chosen.remaining := by
    rw [hstopdef]
    exact stopOf_le t chosen.remaining later
  have h_eq_of_pid : ∀ r ∈ s.procs, r.proc.process_id = chosen.proc.process_id → r = chosen :=
    fun r hr hpid => uniqRP_eq hinv.uniq hmem hr hpid
  have hf_proc : ∀ r : RProc,
      ((if r.proc.process_id = chosen.proc.process_id then
          ({ r with remaining := r.remaining - (stop - t) } : RProc)
        else r)).proc = r.proc := by
    intro r
    by_cases hc : r.proc.process_id = chosen.proc.process_id
    · rw [if_pos hc]
    · rw [if_neg hc]
  have hf_pid : ∀ r : RProc,
      ((if r.proc.process_id = chosen.proc.process_id then
          ({ r with remaining := r.remaining - (stop - t) } : RProc)
        else r)).proc.process_id = r.proc.process_id := by
    intro r
    rw [hf_proc r]
  have hsum2 : sumB p.process_id (s.acc ++ [pEntry stamp chosen t stop]) =
      sumB p.process_id s.acc +
        (if chosen.proc.process_id = p.process_id then stop - t else 0) := by
    rw [sumB_append, sumB_cons, sumB_nil, pEntry_pid, pEntry_burst]
    omega
  constructor
  · refine ⟨?_, ?_, ?_, ?_, ?_, ?_, ?_, ?_, ?_, ?_⟩
    · -- uniq
      exact uniqRP_map hinv.uniq hf_pid
    · -- tgt
      intro r2 hr2 hpid
      rcases List.mem_map.mp hr2 with ⟨r, hr, hfr⟩
      rw [← hfr] at hpid ⊢
      rw [hf_proc r] at hpid ⊢
      exact hinv.tgt r hr hpid
    · -- nonneg
      intro r2 hr2
      rcases List.mem_map.mp hr2 with ⟨r, hr, hfr⟩
      rw [← hfr]
      by_cases hc : r.proc.process_id = chosen.proc.process_id
      · rw [if_pos hc]
        have hre : r = chosen := h_eq_of_pid r hr hc
        show 0 ≤ r.remaining - (stop - t)
        rw [hre]
        omega
      · rw [if_neg hc]
        exact hinv.nonneg r hr
    · -- conserve
      have hremsum2 : remSum p.process_id (s.procs.map (fun r =>
            if r.proc.process_id = chosen.proc.process_id then
              ({ r with remaining := r.remaining - (stop - t) } : RProc)
            else r)) =
          remSum p.process_id s.procs -
            (if chosen.proc.process_id = p.process_id then stop - t else 0) := by
        by_cases hc : chosen.proc.process_id = p.process_id
        · rw [if_pos hc]
          unfold remSum
          rw [filter_rpIs_map hf_pid, ← hc, uniqRP_filter hinv.uniq hmem]
          simp only [List.map_cons, List.map_nil, if_pos rfl]
          show chosen.remaining - (stop - t) + 0 = chosen.remaining + 0 - (stop - t)
          omega
        · rw [if_neg hc]
          unfold remSum
          rw [filter_rpIs_map hf_pid]
          have hid : ∀ r ∈ s.procs.filter (rpIs p.process_id),
              (if r.proc.process_id = chosen.proc.process_id then
                ({ r with remaining := r.remaining - (stop - t) } : RProc)
              else r) = r := by
            intro r hr
            have hr2 := (List.mem_filter.mp hr).2
            unfold rpIs at hr2
            have hr3 : r.proc.process_id = p.process_id := of_decide_eq_true hr2
            rw [if_neg (by rw [hr3]; exact fun hcon => hc hcon.symm)]
          rw [List.map_congr_left hid]
          rw [List.map_id']
          omega
      have hcons := hinv.conserve
      show sumB p.process_id (s.acc ++ [pEntry stamp chosen t stop]) +
          remSum p.process_id (s.procs.map (fun r =>
            if r.proc.process_id = chosen.proc.process_id then
              ({ r with remaining := r.remaining - (stop - t) } : RProc)
            else r)) = p.burst_time
      rw [hsum2, hremsum2]
      omega
    · -- accPos
      intro e he
      rcases List.mem_append.mp he with he1 | he1
      · exact hinv.accPos e he1
      · have heq : e = pEntry stamp chosen t stop := List.mem_singleton.mp he1
        rw [heq, pEntry_burst]
        omega
    · -- clock0
      have := hinv.clock0
      show 0 ≤ stop
      omega
    · -- ends
      intro hst e he
      rcases List.mem_append.mp he with he1 | he1
      · have := hinv.ends hst e he1
        show sliceEnd e ≤ stop
        omega
      · have heq : e = pEntry stamp chosen t stop := List.mem_singleton.mp he1
        subst hst
        rw [heq, pEntry_end_true]
        show t + (stop - t) ≤ stop
        omega
    · -- comp
      intro hst
      subst hst
      have hcompacc : completionTime s.acc p.process_id ≤ s.clock :=
        completionTime_le hinv.clock0 (hinv.ends rfl) p.process_id
      show p.arrival_time + sumB p.process_id (s.acc ++ [pEntry true chosen t stop]) ≤
          completionTime (s.acc ++ [pEntry true chosen t stop]) p.process_id ∨
        sumB p.process_id (s.acc ++ [pEntry true chosen t stop]) = 0
      rw [hsum2]
      by_cases hc : chosen.proc.process_id = p.process_id
      · left
        have hchp : chosen.proc = p := hinv.tgt chosen hmem hc
        have hparr : p.arrival_time ≤ t := by
          have hpe : pArr chosen = p.arrival_time := by
            unfold pArr
            rw [hchp]
          rw [← hpe]
          exact harr
        have hentry_pid : (pEntry true chosen t stop).process_id = p.process_id := by
          rw [pEntry_pid]
          exact hc
        have hge := sliceEnd_le_completionTime_append hentry_pid s.acc
        rw [pEntry_end_true] at hge
        rw [if_pos hc]
        rcases hinv.comp rfl with hcl | hcz
        · omega
        · omega
      · have hentry_pid : (pEntry true chosen t stop).process_id ≠ p.process_id := by
          rw [pEntry_pid]
          exact hc
        rw [completionTime_append_ne hentry_pid, if_neg hc]
        rcases hinv.comp rfl with hcl | hcz
        · left; omega
        · right; omega
    · -- chain
      intro hst
      subst hst
      apply List.chain'_append.mpr
      refine ⟨hinv.chain rfl, List.chain'_singleton _, ?_⟩
      intro x hx y hy
      have hxa : s.acc.getLast? = some x := hx
      have hxm : x ∈ s.acc := List.mem_of_getLast?_eq_some hxa
      have hya : y = pEntry true chosen t stop := by
        have hh : ([pEntry true chosen t stop] : List Process).head? =
            some (pEntry true chosen t stop) := rfl
        rw [hh] at hy
        exact (Option.mem_some_iff.mp hy).symm
      have hend := hinv.ends rfl x hxm
      rw [hya]
      show sliceEnd x ≤ (pEntry true chosen t stop).arrival_time
      rw [pEntry_arr_true]
      omega
    · -- accArr
      intro hsf e he hpid
      rcases List.mem_append.mp he with he1 | he1
      · exact hinv.accArr hsf e he1 hpid
      · have heq : e = pEntry stamp chosen t stop := List.mem_singleton.mp he1
        subst hsf
        rw [heq] at hpid ⊢
        rw [pEntry_pid] at hpid
        rw [pEntry_arr_false]
        have hchp : chosen.proc = p := hinv.tgt chosen hmem hpid
        rw [hchp]
  · -- measure decrease
    set fupd : RProc → RProc := fun r =>
      if r.proc.process_id = chosen.proc.process_id then
        ({ r with remaining := r.remaining - (stop - t) } : RProc)
      else r with hfupd
    have hfupd_proc : ∀ r : RProc, (fupd r).proc = r.proc := by
      intro r
      rw [hfupd]
      exact hf_proc r
    show (s.procs.map fupd).countP (fun r => decide (0 < r.remaining)) +
        (s.procs.map fupd).countP (fun r => decide (stop < pArr r)) <
      s.procs.countP (fun r => decide (0 < r.remaining)) +
        s.procs.countP (fun r => decide (s.clock < pArr r))
    have himp1 : ∀ x ∈ s.procs,
        (fun r : RProc => decide (0 < r.remaining)) (fupd x) = true →
          (fun r : RProc => decide (0 < r.remaining)) x = true := by
      intro x hx h
      have h2 : 0 < (fupd x).remaining := of_decide_eq_true h
      show decide (0 < x.remaining) = true
      apply decide_eq_true
      simp only [hfupd] at h2
      by_cases hc : x.proc.process_id = chosen.proc.process_id
      · rw [if_pos hc] at h2
        have hxr : ({ x with remaining := x.remaining - (stop - t) } : RProc).remaining =
            x.remaining - (stop - t) := rfl
        rw [hxr] at h2
        omega
      · rw [if_neg hc] at h2
        exact h2
    have himp2 : ∀ x ∈ s.procs,
        (fun r : RProc => decide (stop < pArr r)) (fupd x) = true →
          (fun r : RProc => decide (s.clock < pArr r)) x = true := by
      intro x hx h
      have h2 : stop < pArr (fupd x) := of_decide_eq_true h
      have harr_eq : pArr (fupd x) = pArr x := by
        unfold pArr
        rw [hfupd_proc x]
      rw [harr_eq] at h2
      show decide (s.clock < pArr x) = true
      apply decide_eq_true
      omega
    rcases stopOf_cases t chosen.remaining later with hcase | ⟨b, hb, hbarr, hblt⟩
    · -- the chosen process completes at stop
      rw [← hstopdef] at hcase
      have hfc : fupd chosen = ⟨chosen.proc, chosen.remaining - (stop - t)⟩ := by
        rw [hfupd]
        show (if chosen.proc.process_id = chosen.proc.process_id then _ else _) = _
        rw [if_pos rfl]
      have hstrict := @countP_map_lt RProc s.procs fupd
        (fun r => decide (0 < r.remaining)) (fun r => decide (0 < r.remaining))
        himp1 ⟨chosen, hmem, by
          show decide (0 < chosen.remaining) = true
          exact decide_eq_true hrem, by
          show decide (0 < (fupd chosen).remaining) = false
          rw [hfc]
          apply decide_eq_false
          show ¬ 0 < chosen.remaining - (stop - t)
          omega⟩
      have hle := @countP_map_le RProc s.procs fupd
        (fun r => decide (s.clock < pArr r)) (fun r => decide (stop < pArr r)) himp2
      omega
    · -- the clock reaches a strictly later arrival at stop
      rw [← hstopdef] at hbarr hblt
      have hle := @countP_map_le RProc s.procs fupd
        (fun r => decide (0 < r.remaining)) (fun r => decide (0 < r.remaining)) himp1
      have hbmem : b ∈ s.procs := by
        rw [hlater] at hb
        have hb1 := (List.mem_filter.mp hb).1
        rw [hactive] at hb1
        exact (List.mem_filter.mp hb1).1
      have hbgt := h_later_gt b hb
      have hstrict := @countP_map_lt RProc s.procs fupd
        (fun r => decide (s.clock < pArr r)) (fun r => decide (stop < pArr r))
        himp2 ⟨b, hbmem, by
          show decide (s.clock < pArr b) = true
          apply decide_eq_true
          omega, by
          show decide (stop < pArr (fupd b)) = false
          have harr_eq : pArr (fupd b) = pArr b := by
            unfold pArr
            rw [hfupd_proc b]
          rw [harr_eq]
          apply decide_eq_false
          omega⟩
      omega

theorem pLoop_run (key : RProc → Int) (stamp : Bool) (p : Process) :
    ∀ (f : Nat) (s : PState), PLoopInv p stamp s → pMeasure s < f →
    PLoopInv p stamp (pLoop key stamp f s) ∧
      ∀ r ∈ (pLoop key stamp f s).procs, r.remaining = 0 := by
  intro f
  induction f with
  | zero =>
    intro s _ hm
    exact absurd hm (Nat.not_lt_zero _)
  | succ f ih =>
    intro s hinv hm
    cases hch : chooseMin (pKeyOf key)
        ((s.procs.filter (fun r => decide (0 < r.remaining))).filter
          (fun r => decide (pArr r ≤ nextFree pArr s.clock
            (s.procs.filter (fun r => decide (0 < r.remaining)))))) with
    | none =>
      have hres : pLoop key stamp (f + 1) s = s := by
        simp only [pLoop, hch]
      rw [hres]
      refine ⟨hinv, ?_⟩
      have hact : s.procs.filter (fun r => decide (0 < r.remaining)) = [] := by
        by_contra hne
        have hready := nextFree_ready pArr s.clock hne
        rcases chooseMin_of_ne_nil (k := pKeyOf key) hready with ⟨c, hc⟩
        rw [hch] at hc
        exact Option.noConfusion hc
      intro r hr
      have hnot : ¬ (0 < r.remaining) := by
        intro hpos
        have hmem : r ∈ s.procs.filter (fun r => decide (0 < r.remaining)) :=
          List.mem_filter.mpr ⟨hr, decide_eq_true hpos⟩
        rw [hact] at hmem
        exact absurd hmem (List.not_mem_nil r)
      have := hinv.nonneg r hr
      omega
    | some chosen =>
      have hres : pLoop key stamp (f + 1) s = pLoop key stamp f (pStep stamp s chosen) := by
        simp only [pLoop, hch]
      have hmemf := chooseMin_mem hch
      have hmem1 := List.mem_filter.mp hmemf
      have hmem2 := List.mem_filter.mp hmem1.1
      have hsi := pStep_inv hinv hmem2.1 (of_decide_eq_true hmem2.2)
        (of_decide_eq_true hmem1.2)
      rw [hres]
      exact ih (pStep stamp s chosen) hsi.1 (by omega)

theorem pLoop_init_inv (stamp : Bool) {procs : List Process} {p : Process}
    (hu : UniqP procs) (hp : p ∈ procs)
    (hval : ∀ x ∈ procs, 0 ≤ x.arrival_time ∧ 0 < x.burst_time) :
    PLoopInv p stamp ⟨procs.map toRP, 0, []⟩ := by
  refine ⟨?_, ?_, ?_, ?_, ?_, ?_, ?_, ?_, ?_, ?_⟩
  · show UniqRP (procs.map toRP)
    unfold UniqRP
    rw [List.pairwise_map]
    exact hu.imp (fun {a b} h => h)
  · intro r hr hpid
    rcases List.mem_map.mp hr with ⟨x, hx, hxr⟩
    rw [← hxr] at hpid ⊢
    show x = p
    exact uniqP_eq hu hp hx hpid
  · intro r hr
    rcases List.mem_map.mp hr with ⟨x, hx, hxr⟩
    rw [← hxr]
    show (0 : Int) ≤ x.burst_time
    exact le_of_lt (hval x hx).2
  · show sumB p.process_id [] + remSum p.process_id (procs.map toRP) = p.burst_time
    rw [sumB_nil, remSum_map_toRP]
    unfold sumB
    rw [uniqP_filter hu hp]
    simp
  · intro e he
    exact absurd he (List.not_mem_nil e)
  · exact le_refl 0
  · intro _ e he
    exact absurd he (List.not_mem_nil e)
  · intro _
    right
    rfl
  · intro _
    exact List.chain'_nil
  · intro _ e he _
    exact absurd he (List.not_mem_nil e)

theorem pLoop_facts (key : RProc → Int) (stamp : Bool) {procs : List Process} {p : Process}
    (hu : UniqP procs) (hp : p ∈ procs)
    (hval : ∀ x ∈ procs, 0 ≤ x.arrival_time ∧ 0 < x.burst_time) :
    PLoopInv p stamp (pLoop key stamp (2 * procs.length + 1) ⟨procs.map toRP, 0, []⟩) ∧
      ∀ r ∈ (pLoop key stamp (2 * procs.length + 1) ⟨procs.map toRP, 0, []⟩).procs,
        r.remaining = 0 := by
  apply pLoop_run
  · exact pLoop_init_inv stamp hu hp hval
  · show (procs.map toRP).countP (fun r => decide (0 < r.remaining)) +
        (procs.map toRP).countP (fun r => decide ((0 : Int) < pArr r)) <
      2 * procs.length + 1
    have h1 : (procs.map toRP).countP (fun r => decide (0 < r.remaining)) ≤
        (procs.map toRP).length := List.countP_le_length _
    have h2 : (procs.map toRP).countP (fun r => decide ((0 : Int) < pArr r)) ≤
        (procs.map toRP).length := List.countP_le_length _
    rw [List.length_map] at h1 h2
    omega

theorem srtf_facts {procs : List Process} (hu : UniqP procs)
    (hval : ∀ x ∈ procs, 0 ≤ x.arrival_time ∧ 0 < x.burst_time)
    {p : Process} (hp : p ∈ procs) :
    (∀ e ∈ shortestRemainingTimeFirst procs, 0 < e.burst_time) ∧
      (∀ e ∈ shortestRemainingTimeFirst procs,
        e.process_id = p.process_id → e.arrival_time = p.arrival_time) ∧
      sumB p.process_id (shortestRemainingTimeFirst procs) = p.burst_time := by
  rcases pLoop_facts RProc.remaining false hu hp hval with ⟨hinv, hdone⟩
  unfold shortestRemainingTimeFirst
  refine ⟨hinv.accPos, hinv.accArr rfl, ?_⟩
  have hrs : remSum p.process_id
      (pLoop RProc.remaining false (2 * procs.length + 1)
        ⟨procs.map toRP, 0, []⟩).procs = 0 :=
    remSum_zero_of_done _ hdone
  have hcons := hinv.conserve
  omega

theorem pps_facts {procs : List Process} (hu : UniqP procs)
    (hval : ∀ x ∈ procs, 0 ≤ x.arrival_time ∧ 0 < x.burst_time)
    {p : Process} (hp : p ∈ procs) :
    (∀ e ∈ preemptivePriority procs, 0 < e.burst_time) ∧
      List.Chain' SliceLE (preemptivePriority procs) ∧
      p.arrival_time + p.burst_time ≤
        completionTime (preemptivePriority procs) p.process_id := by
  rcases pLoop_facts (fun r => r.proc.priority.getD 0) true hu hp hval with ⟨hinv, hdone⟩
  unfold preemptivePriority
  refine ⟨hinv.accPos, hinv.chain rfl, ?_⟩
  have hrs : remSum p.process_id
      (pLoop (fun r => r.proc.priority.getD 0) true (2 * procs.length + 1)
        ⟨procs.map toRP, 0, []⟩).procs = 0 :=
    remSum_zero_of_done _ hdone
  have hcons := hinv.conserve
  have hbpos := (hval p hp).2
  rcases hinv.comp rfl with hcl | hcz
  · omega
  · omega

theorem remNat_map_toRP (l : List Process) :
    remNat (l.map toRP) = (l.map (fun p => p.burst_time.toNat)).sum := by
  induction l with
  | nil => rfl
  | cons x xs ih =>
    rw [List.map_cons, remNat_cons, List.map_cons, List.sum_cons, ih]
    rfl

theorem rrArrive_inv {p : Process} {s : RRState} {r0 : RProc} {rest : List RProc}
    (hinv : RRInv p s) (hq : s.queue = []) (hf : s.future = r0 :: rest) :
    RRInv p (rrArrive s r0 rest) ∧ rrMeasure (rrArrive s r0 rest) < rrMeasure s := by
  simp only [rrArrive, rrMeasure]
  set t := max s.clock (foldMin pArr (pArr r0) rest) with htdef
  set fA := (r0 :: rest).filter (fun r => decide (pArr r ≤ t)) with hfAdef
  set fB := (r0 :: rest).filter (fun r => decide (¬ pArr r ≤ t)) with hfBdef
  have hperm : (fA ++ fB).Perm (r0 :: rest) := by
    rw [hfAdef, hfBdef]
    have hpred : (fun r : RProc => decide (¬ pArr r ≤ t)) =
        (fun r : RProc => ! decide (pArr r ≤ t)) := by
      funext r
      exact decide_not
    rw [hpred]
    exact List.filter_append_perm _ _
  have hqf_perm : (fA ++ fB).Perm (s.queue ++ s.future) := by
    rw [hq, hf, List.nil_append]
    exact hperm
  constructor
  · refine ⟨?_, ?_, ?_, ?_, ?_⟩
    · intro r hr
      exact hinv.pos r (hqf_perm.subset hr)
    · intro r hr hpid
      exact hinv.tgt r (hqf_perm.subset hr) hpid
    · show sumB p.process_id s.acc + remSum p.process_id (fA ++ fB) = p.burst_time
      rw [remSum_perm _ hqf_perm]
      exact hinv.conserve
    · exact hinv.accPos
    · exact hinv.accArr
  · show fB.length + remNat (fA ++ fB) < s.future.length + remNat (s.queue ++ s.future)
    have hlen : fA.length + fB.length = (r0 :: rest).length := by
      have h := hperm.length_eq
      rw [List.length_append] at h
      exact h
    have hfA_ne : fA ≠ [] := by
      have hx : ∃ w ∈ r0 :: rest, pArr w = foldMin pArr (pArr r0) rest := by
        rcases foldMin_choice pArr rest (pArr r0) with hc | ⟨x, hx, hc⟩
        · exact ⟨r0, List.mem_cons_self r0 rest, hc.symm⟩
        · exact ⟨x, List.mem_cons_of_mem r0 hx, hc.symm⟩
      rcases hx with ⟨w, hw, hweq⟩
      intro hcon
      have hwm : w ∈ fA := by
        rw [hfAdef]
        refine List.mem_filter.mpr ⟨hw, ?_⟩
        apply decide_eq_true
        rw [htdef]
        omega
      rw [hcon] at hwm
      exact absurd hwm (List.not_mem_nil w)
    have hfApos : 1 ≤ fA.length := List.length_pos.mpr hfA_ne
    have hrn : remNat (fA ++ fB) = remNat (s.queue ++ s.future) := remNat_perm hqf_perm
    have hflen : s.future.length = (r0 :: rest).length := by rw [hf]
    rw [hrn, hflen]
    rw [List.length_cons] at *
    omega

theorem rrRun_inv {p : Process} {q : Int} (hq1 : 1 ≤ q) {s : RRState}
    {h : RProc} {qrest : List RProc}
    (hinv : RRInv p s) (hqueue : s.queue = h :: qrest) :
    RRInv p (rrRun q s h qrest) ∧ rrMeasure (rrRun q s h qrest) < rrMeasure s := by
  simp only [rrRun, rrMeasure]
  set amount := min h.remaining q with hamdef
  set stop := s.clock + amount with hstopdef
  set fA := s.future.filter (fun r => decide (pArr r ≤ stop)) with hfAdef
  set fB := s.future.filter (fun r => decide (¬ pArr r ≤ stop)) with hfBdef
  set opt := (if 0 < h.remaining - amount then [(⟨h.proc, h.remaining - amount⟩ : RProc)]
    else []) with hoptdef
  have hmemh : h ∈ s.queue ++ s.future := by
    rw [hqueue]
    exact List.mem_append_left _ (List.mem_cons_self h qrest)
  have hposh : 0 < h.remaining := hinv.pos h hmemh
  have ham1 : 1 ≤ amount := by
    rw [hamdef]
    omega
  have ham2 : amount ≤ h.remaining := by
    rw [hamdef]
    omega
  have hpermAB : (fA ++ fB).Perm s.future := by
    rw [hfAdef, hfBdef]
    have hpred : (fun r : RProc => decide (¬ pArr r ≤ stop)) =
        (fun r : RProc => ! decide (pArr r ≤ stop)) := by
      funext r
      exact decide_not
    rw [hpred]
    exact List.filter_append_perm _ _
  have hmem_dec : ∀ r : RProc, r ∈ (qrest ++ fA ++ opt) ++ fB →
      r ∈ s.queue ++ s.future ∨
        (r = (⟨h.proc, h.remaining - amount⟩ : RProc) ∧ 0 < h.remaining - amount) := by
    intro r hr
    rcases List.mem_append.mp hr with hr1 | hr1
    · rcases List.mem_append.mp hr1 with hr2 | hr2
      · rcases List.mem_append.mp hr2 with hr3 | hr3
        · left
          rw [hqueue]
          exact List.mem_append_left _ (List.mem_cons_of_mem h hr3)
        · left
          rw [hfAdef] at hr3
          exact List.mem_append_right _ (List.mem_filter.mp hr3).1
      · rw [hoptdef] at hr2
        by_cases hkeep : 0 < h.remaining - amount
        · rw [if_pos hkeep] at hr2
          right
          exact ⟨List.mem_singleton.mp hr2, hkeep⟩
        · rw [if_neg hkeep] at hr2
          exact absurd hr2 (List.not_mem_nil r)
    · left
      rw [hfBdef] at hr1
      exact List.mem_append_right _ (List.mem_filter.mp hr1).1
  have hsumold : remSum p.process_id (s.queue ++ s.future) =
      (if h.proc.process_id = p.process_id then h.remaining else 0) +
        remSum p.process_id qrest + remSum p.process_id s.future := by
    rw [hqueue, List.cons_append, remSum_cons, remSum_append]
    omega
  have hsumopt : remSum p.process_id opt =
      (if h.proc.process_id = p.process_id then h.remaining - amount else 0) ∨
      (remSum p.process_id opt = 0 ∧ h.remaining = amount) := by
    rw [hoptdef]
    by_cases hkeep : 0 < h.remaining - amount
    · left
      rw [if_pos hkeep, remSum_cons, remSum_nil]
      have hp1 : ((⟨h.proc, h.remaining - amount⟩ : RProc)).proc.process_id =
          h.proc.process_id := rfl
      have hp2 : ((⟨h.proc, h.remaining - amount⟩ : RProc)).remaining =
          h.remaining - amount := rfl
      rw [hp1, hp2]
      omega
    · right
      rw [if_neg hkeep, remSum_nil]
      exact ⟨rfl, by omega⟩
  have hsumnew : remSum p.process_id ((qrest ++ fA ++ opt) ++ fB) =
      remSum p.process_id qrest + remSum p.process_id s.future +
        remSum p.process_id opt := by
    rw [remSum_append, remSum_append, remSum_append]
    have hAB : remSum p.process_id fA + remSum p.process_id fB =
        remSum p.process_id s.future := by
      rw [← remSum_append]
      exact remSum_perm _ hpermAB
    omega
  have hacc2 : sumB p.process_id (s.acc ++ [{ h.proc with burst_time := amount }]) =
      sumB p.process_id s.acc +
        (if h.proc.process_id = p.process_id then amount else 0) := by
    rw [sumB_append, sumB_cons, sumB_nil]
    have hpid : ({ h.proc with burst_time := amount } : Process).process_id =
        h.proc.process_id := rfl
    have hbur : ({ h.proc with burst_time := amount } : Process).burst_time = amount := rfl
    rw [hpid, hbur]
    omega
  constructor
  · refine ⟨?_, ?_, ?_, ?_, ?_⟩
    · intro r hr
      rcases hmem_dec r hr with hr1 | ⟨hr1, hr2⟩
      · exact hinv.pos r hr1
      · rw [hr1]
        exact hr2
    · intro r hr hpid
      rcases hmem_dec r hr with hr1 | ⟨hr1, _⟩
      · exact hinv.tgt r hr1 hpid
      · rw [hr1] at hpid ⊢
        show h.proc = p
        exact hinv.tgt h hmemh hpid
    · show sumB p.process_id (s.acc ++ [{ h.proc with burst_time := amount }]) +
          remSum p.process_id ((qrest ++ fA ++ opt) ++ fB) = p.burst_time
      have hcons := hinv.conserve
      rw [hacc2, hsumnew]
      rw [hsumold] at hcons
      rcases hsumopt with ho | ⟨ho, _⟩
      · by_cases hpid : h.proc.process_id = p.process_id
        · rw [if_pos hpid] at hcons ho ⊢
          omega
        · rw [if_neg hpid] at hcons ho ⊢
          omega
      · by_cases hpid : h.proc.process_id = p.process_id
        · rw [if_pos hpid] at hcons ⊢
          omega
        · rw [if_neg hpid] at hcons ⊢
          omega
    · intro e he
      rcases List.mem_append.mp he with he1 | he1
      · exact hinv.accPos e he1
      · have heq : e = { h.proc with burst_time := amount } := List.mem_singleton.mp he1
        rw [heq]
        show 0 < amount
        omega
    · intro e he hpid
      rcases List.mem_append.mp he with he1 | he1
      · exact hinv.accArr e he1 hpid
      · have heq : e = { h.proc with burst_time := amount } := List.mem_singleton.mp he1
        rw [heq] at hpid ⊢
        have hpid2 : h.proc.process_id = p.process_id := hpid
        have hhp : h.proc = p := hinv.tgt h hmemh hpid2
        show h.proc.arrival_time = p.arrival_time
        rw [hhp]
  · show fB.length + remNat ((qrest ++ fA ++ opt) ++ fB) <
      s.future.length + remNat (s.queue ++ s.future)
    have hrnnew : remNat ((qrest ++ fA ++ opt) ++ fB) =
        remNat qrest + remNat s.future + remNat opt := by
      rw [remNat_append, remNat_append, remNat_append]
      have hAB : remNat fA + remNat fB = remNat s.future := by
        rw [← remNat_append]
        exact remNat_perm hpermAB
      omega
    have hrnold : remNat (s.queue ++ s.future) =
        h.remaining.toNat + remNat qrest + remNat s.future := by
      rw [hqueue, List.cons_append, remNat_cons, remNat_append]
      omega
    have hrnopt : remNat opt ≤ h.remaining.toNat - 1 := by
      rw [hoptdef]
      by_cases hkeep : 0 < h.remaining - amount
      · rw [if_pos hkeep, remNat_cons]
        show (h.remaining - amount).toNat + remNat [] ≤ h.remaining.toNat - 1
        have : remNat ([] : List RProc) = 0 := rfl
        omega
      · rw [if_neg hkeep]
        show remNat ([] : List RProc) ≤ h.remaining.toNat - 1
        have : remNat ([] : List RProc) = 0 := rfl
        omega
    have hfBlen : fB.length ≤ s.future.length := by
      rw [hfBdef]
      exact List.length_filter_le _ _
    rw [hrnnew, hrnold]
    have hr1 : 1 ≤ h.remaining.toNat := by omega
    omega

theorem rrLoop_run (q : Int) (hq1 : 1 ≤ q) (p : Process) :
    ∀ (f : Nat) (s : RRState), RRInv p s → rrMeasure s < f →
    RRInv p (rrLoop q f s) ∧ (rrLoop q f s).queue = [] ∧ (rrLoop q f s).future = [] := by
  intro f
  induction f with
  | zero =>
    intro s _ hm
    exact absurd hm (Nat.not_lt_zero _)
  | succ f ih =>
    intro s hinv hm
    rcases hqe : s.queue with _ | ⟨h, qrest⟩
    · rcases hfe : s.future with _ | ⟨r0, rest⟩
      · have hres : rrLoop q (f + 1) s = s := by
          simp only [rrLoop, hqe, hfe]
        rw [hres]
        exact ⟨hinv, hqe, hfe⟩
      · have hres : rrLoop q (f + 1) s = rrLoop q f (rrArrive s r0 rest) := by
          simp only [rrLoop, hqe, hfe]
        have hstep := rrArrive_inv hinv hqe hfe
        rw [hres]
        exact ih _ hstep.1 (by omega)
    · have hres : rrLoop q (f + 1) s = rrLoop q f (rrRun q s h qrest) := by
        simp only [rrLoop, hqe]
      have hstep := rrRun_inv hq1 hinv hqe
      rw [hres]
      exact ih _ hstep.1 (by omega)

theorem rr_init_inv {procs : List Process} {p : Process}
    (hu : UniqP procs) (hp : p ∈ procs)
    (hval : ∀ x ∈ procs, 0 ≤ x.arrival_time ∧ 0 < x.burst_time) :
    RRInv p ⟨[], (List.insertionSort fcfsLE procs).map toRP, 0, []⟩ := by
  have hperm : ((List.insertionSort fcfsLE procs).map toRP).Perm (procs.map toRP) :=
    (List.perm_insertionSort fcfsLE procs).map toRP
  refine ⟨?_, ?_, ?_, ?_, ?_⟩
  · intro r hr
    rw [List.nil_append] at hr
    rcases List.mem_map.mp (hperm.subset hr) with ⟨x, hx, hxr⟩
    rw [← hxr]
    show (0 : Int) < x.burst_time
    exact (hval x hx).2
  · intro r hr hpid
    rw [List.nil_append] at hr
    rcases List.mem_map.mp (hperm.subset hr) with ⟨x, hx, hxr⟩
    rw [← hxr] at hpid ⊢
    show x = p
    exact uniqP_eq hu hp hx hpid
  · show sumB p.process_id [] +
        remSum p.process_id ([] ++ (List.insertionSort fcfsLE procs).map toRP) =
      p.burst_time
    rw [sumB_nil, List.nil_append, remSum_perm _ hperm, remSum_map_toRP]
    unfold sumB
    rw [uniqP_filter hu hp]
    simp
  · intro e he
    exact absurd he (List.not_mem_nil e)
  · intro e he _
    exact absurd he (List.not_mem_nil e)

theorem rr_facts {procs : List Process} (hu : UniqP procs)
    (hval : ∀ x ∈ procs, 0 ≤ x.arrival_time ∧ 0 < x.burst_time)
    {qv : Int} (hq1 : 1 ≤ qv) {p : Process} (hp : p ∈ procs) :
    (∀ e ∈ roundRobin procs qv, 0 < e.burst_time) ∧
      (∀ e ∈ roundRobin procs qv,
        e.process_id = p.process_id → e.arrival_time = p.arrival_time) ∧
      sumB p.process_id (roundRobin procs qv) = p.burst_time := by
  have hmeas : rrMeasure ⟨[], (List.insertionSort fcfsLE procs).map toRP, 0, []⟩ <
      procs.length + (procs.map (fun p => p.burst_time.toNat)).sum + 1 := by
    show ((List.insertionSort fcfsLE procs).map toRP).length +
        remNat ([] ++ (List.insertionSort fcfsLE procs).map toRP) <
      procs.length + (procs.map (fun p => p.burst_time.toNat)).sum + 1
    rw [List.nil_append, List.length_map, List.length_insertionSort]
    have hrn : remNat ((List.insertionSort fcfsLE procs).map toRP) =
        (procs.map (fun p => p.burst_time.toNat)).sum := by
      rw [remNat_perm ((List.perm_insertionSort fcfsLE procs).map toRP), remNat_map_toRP]
    omega
  rcases rrLoop_run qv hq1 p
      (procs.length + (procs.map (fun p => p.burst_time.toNat)).sum + 1)
      ⟨[], (List.insertionSort fcfsLE procs).map toRP, 0, []⟩
      (rr_init_inv hu hp hval) hmeas with ⟨hinv, hqnil, hfnil⟩
  unfold roundRobin
  refine ⟨hinv.accPos, hinv.accArr, ?_⟩
  have hcons := hinv.conserve
  rw [hqnil, hfnil] at hcons
  have hznil : remSum p.process_id ([] ++ ([] : List RProc)) = 0 := rfl
  rw [hznil] at hcons
  omega

theorem onSubmit_ok {s : SimState} (h : s.processes ≠ []) (alg : String) (q : Option Int) :
    onSubmit s alg q = ({ s with timeline := buildTimeline s.processes alg q }, none) := by
  unfold onSubmit
  rw [if_neg h]

theorem onSubmit_empty {s : SimState} (h : s.processes = []) (alg : String) (q : Option Int) :
    onSubmit s alg q = (s, some emptyInputToast) := by
  unfold onSubmit
  rw [if_pos h]

theorem computeRaw_fcfs (procs : List Process) (q : Option Int) :
    computeRaw procs "fCFS" q = firstComeFirstServe procs := by
  unfold computeRaw
  rw [if_pos rfl]

theorem computeRaw_sjf (procs : List Process) (q : Option Int) :
    computeRaw procs "SJF" q = shortestJobFirst procs := by
  unfold computeRaw
  rw [if_neg (by decide), if_pos rfl]

theorem computeRaw_rr (procs : List Process) (q : Option Int) :
    computeRaw procs "RR" q = roundRobin procs (q.getD 0) := by
  unfold computeRaw
  rw [if_neg (by decide), if_neg (by decide), if_pos rfl]

theorem computeRaw_srtf (procs : List Process) (q : Option Int) :
    computeRaw procs "SRTF" q = shortestRemainingTimeFirst procs := by
  unfold computeRaw
  rw [if_neg (by decide), if_neg (by decide), if_neg (by decide), if_pos rfl]

theorem computeRaw_npps (procs : List Process) (q : Option Int) :
    computeRaw procs "NPPS" q = nonPreemptivePriority procs := by
  unfold computeRaw
  rw [if_neg (by decide), if_neg (by decide), if_neg (by decide), if_neg (by decide),
    if_pos rfl]

theorem computeRaw_pps (procs : List Process) (q : Option Int) :
    computeRaw procs "PPS" q = preemptivePriority procs := by
  unfold computeRaw
  rw [if_neg (by decide), if_neg (by decide), if_neg (by decide), if_neg (by decide),
    if_neg (by decide), if_pos rfl]

theorem computeRaw_unknown {alg : String} (halg : alg ∉ algorithms)
    (procs : List Process) (q : Option Int) : computeRaw procs alg q = [] := by
  have h6 : alg ≠ "fCFS" ∧ alg ≠ "SJF" ∧ alg ≠ "RR" ∧ alg ≠ "SRTF" ∧
      alg ≠ "NPPS" ∧ alg ≠ "PPS" := by
    refine ⟨?_, ?_, ?_, ?_, ?_, ?_⟩ <;> (intro h; apply halg; rw [h]; decide)
  unfold computeRaw
  rw [if_neg h6.1, if_neg h6.2.1, if_neg h6.2.2.1, if_neg h6.2.2.2.1,
    if_neg h6.2.2.2.2.1, if_neg h6.2.2.2.2.2]

theorem computeRaw_quantum_ignored {alg : String} (h : alg ≠ "RR")
    (procs : List Process) (q1 q2 : Option Int) :
    computeRaw procs alg q1 = computeRaw procs alg q2 := by
  unfold computeRaw
  by_cases h1 : alg = "fCFS"
  · rw [if_pos h1, if_pos h1]
  · rw [if_neg h1, if_neg h1]
    by_cases h2 : alg = "SJF"
    · rw [if_pos h2, if_pos h2]
    · rw [if_neg h2, if_neg h2, if_neg h, if_neg h]

theorem buildTimeline_pps (procs : List Process) (q : Option Int) :
    buildTimeline procs "PPS" q = preemptivePriority procs := by
  unfold buildTimeline
  rw [if_pos rfl, assemblePPS_eq, computeRaw_pps]

theorem buildTimeline_not_pps {alg : String} (h : alg ≠ "PPS")
    (procs : List Process) (q : Option Int) :
    buildTimeline procs alg q = assemble (computeRaw procs alg q) := by
  unfold buildTimeline
  rw [if_neg h]

theorem timeline_facts {procs : List Process} {alg : String} {q : Option Int}
    (hne : procs ≠ []) (hu : UniqP procs)
    (hvv : ∀ x ∈ procs, 0 ≤ x.arrival_time ∧ 0 < x.burst_time)
    (hq : alg = "RR" → match q with | some v => 0 < v ∧ v ≤ 100 | none => False)
    (halg : alg ∈ algorithms) :
    (∀ e ∈ buildTimeline procs alg q, 0 < e.burst_time) ∧
      List.Chain' SliceLE (buildTimeline procs alg q) ∧
      ∀ p ∈ procs, p.arrival_time + p.burst_time ≤
        completionTime (buildTimeline procs alg q) p.process_id := by
  have halg6 : alg = "fCFS" ∨ alg = "SJF" ∨ alg = "RR" ∨ alg = "SRTF" ∨
      alg = "NPPS" ∨ alg = "PPS" := by
    unfold algorithms at halg
    simpa using halg
  rcases halg6 with h | h | h | h | h | h
  · -- FCFS
    subst h
    rw [buildTimeline_not_pps (by decide), computeRaw_fcfs]
    rcases perm_raw_facts (fcfs_perm procs) hu hvv with ⟨hpos, hpp⟩
    refine ⟨assembleFrom_pos _ 0 hpos, (assembleFrom_chain _ 0 hpos).1, ?_⟩
    intro p hp
    rcases hpp p hp with ⟨harr, hsum⟩
    exact completion_of_raw_facts hpos harr hsum (hvv p hp).2
  · -- SJF
    subst h
    rw [buildTimeline_not_pps (by decide), computeRaw_sjf]
    rcases perm_raw_facts (sjf_perm procs) hu hvv with ⟨hpos, hpp⟩
    refine ⟨assembleFrom_pos _ 0 hpos, (assembleFrom_chain _ 0 hpos).1, ?_⟩
    intro p hp
    rcases hpp p hp with ⟨harr, hsum⟩
    exact completion_of_raw_facts hpos harr hsum (hvv p hp).2
  · -- RR
    subst h
    rw [buildTimeline_not_pps (by decide), computeRaw_rr]
    cases q with
    | none => exact absurd (hq rfl) (fun h => h)
    | some v =>
      have hqv := hq rfl
      have hq1 : 1 ≤ v := by omega
      rcases List.exists_mem_of_ne_nil procs hne with ⟨p0, hp0⟩
      rcases rr_facts hu hvv hq1 hp0 with ⟨hpos, _, _⟩
      refine ⟨assembleFrom_pos _ 0 hpos, (assembleFrom_chain _ 0 hpos).1, ?_⟩
      intro p hp
      rcases rr_facts hu hvv hq1 hp with ⟨_, harr, hsum⟩
      exact completion_of_raw_facts hpos harr hsum (hvv p hp).2
  · -- SRTF
    subst h
    rw [buildTimeline_not_pps (by decide), computeRaw_srtf]
    rcases List.exists_mem_of_ne_nil procs hne with ⟨p0, hp0⟩
    rcases srtf_facts hu hvv hp0 with ⟨hpos, _, _⟩
    refine ⟨assembleFrom_pos _ 0 hpos, (assembleFrom_chain _ 0 hpos).1, ?_⟩
    intro p hp
    rcases srtf_facts hu hvv hp with ⟨_, harr, hsum⟩
    exact completion_of_raw_facts hpos harr hsum (hvv p hp).2
  · -- NPPS
    subst h
    rw [buildTimeline_not_pps (by decide), computeRaw_npps]
    rcases perm_raw_facts (npps_perm procs) hu hvv with ⟨hpos, hpp⟩
    refine ⟨assembleFrom_pos _ 0 hpos, (assembleFrom_chain _ 0 hpos).1, ?_⟩
    intro p hp
    rcases hpp p hp with ⟨harr, hsum⟩
    exact completion_of_raw_facts hpos harr hsum (hvv p hp).2
  · -- PPS
    subst h
    rw [buildTimeline_pps]
    rcases List.exists_mem_of_ne_nil procs hne with ⟨p0, hp0⟩
    rcases pps_facts hu hvv hp0 with ⟨hpos, hchain, _⟩
    refine ⟨hpos, hchain, ?_⟩
    intro p hp
    exact (pps_facts hu hvv hp).2.2

/-- C1 as stated is false on the code: the assembly pass inserts no idle
slices and the timeline need not be contiguous or span [0, makespan).
Concretely, FCFS on P1(arrival 0, burst 1) and P2(arrival 5, burst 1)
yields two slices where the first ends at time 1 but the second starts at
time 5, with no idle slice between them and nothing covering [1, 5). -/
theorem c1_counterexample :
    (onSubmit ⟨[⟨1, 0, 1, "", none⟩, ⟨2, 5, 1, "", none⟩], []⟩ "fCFS" none).1.timeline =
      [⟨1, 0, 1, "", none⟩, ⟨2, 5, 1, "", none⟩] ∧
      sliceEnd (⟨1, 0, 1, "", none⟩ : Process) ≠
        (⟨2, 5, 1, "", none⟩ : Process).arrival_time := by
  decide

/-- C1 (amended): for every valid input and each of the six strategies,
every slice of the assembled timeline has positive duration and the
slices are totally ordered by start time and mutually non-overlapping
(each slice's start plus its duration is at most the next slice's start);
however, no idle slices are inserted, so the timeline may contain gaps
and need not start at 0 or span [0, makespan) contiguously. -/
theorem c1_amended_timeline_shape (s : SimState) (alg : String) (q : Option Int)
    (hval : ValidInput s.processes alg q) (halg : alg ∈ algorithms) :
    (∀ e ∈ (onSubmit s alg q).1.timeline, 0 < e.burst_time) ∧
      List.Chain' SliceLE (onSubmit s alg q).1.timeline := by
  rcases hval with ⟨hne, hu, hvv, hqv, _⟩
  have htl : (onSubmit s alg q).1.timeline = buildTimeline s.processes alg q := by
    rw [onSubmit_ok hne]
  rw [htl]
  have hfacts := timeline_facts hne hu hvv hqv halg
  exact ⟨hfacts.1, hfacts.2.1⟩

/-- Witness for the amended C1 at a concrete valid round-robin input. -/
theorem c1_amended_witness :
    ValidInput ([⟨1, 0, 5, "", none⟩, ⟨2, 0, 3, "", none⟩] : List Process) "RR" (some 2) ∧
      "RR" ∈ algorithms ∧
      ((∀ e ∈ (onSubmit ⟨[⟨1, 0, 5, "", none⟩, ⟨2, 0, 3, "", none⟩], []⟩
            "RR" (some 2)).1.timeline, 0 < e.burst_time) ∧
        List.Chain' SliceLE
          (onSubmit ⟨[⟨1, 0, 5, "", none⟩, ⟨2, 0, 3, "", none⟩], []⟩
            "RR" (some 2)).1.timeline) :=
  ⟨by decide, by decide,
    c1_amended_timeline_shape ⟨[⟨1, 0, 5, "", none⟩, ⟨2, 0, 3, "", none⟩], []⟩
      "RR" (some 2) (by decide) (by decide)⟩

/-- C2 as stated is false on the code: with round robin selected, a
missing quantum passes the form schema and raises no error (it is
silently defaulted to 0), and a zero quantum is likewise accepted; no
InvalidQuantum rejection exists anywhere. -/
theorem c2_counterexample :
    formSchemaQuantumOk none = true ∧
      formSchemaQuantumOk (some 0) = true ∧
      (onSubmit ⟨[⟨1, 0, 2, "", none⟩], []⟩ "RR" none).2 = none ∧
      (onSubmit ⟨[⟨1, 0, 2, "", none⟩], []⟩ "RR" (some 0)).2 = none := by
  decide

/-- C2 (amended): when round robin is selected, a quantum greater than
100 is rejected by the form schema; but a missing quantum passes
validation and is silently defaulted to 0 and handed to the round-robin
strategy with no error raised, zero and negative quanta are accepted, and
for every algorithm other than round robin the quantum is ignored. -/
theorem c2_amended_quantum_validation :
    (∀ v : Int, 100 < v → formSchemaQuantumOk (some v) = false) ∧
      (formSchemaQuantumOk none = true ∧
        ∀ s : SimState, s.processes ≠ [] →
          (onSubmit s "RR" none).1.timeline = assemble (roundRobin s.processes 0) ∧
            (onSubmit s "RR" none).2 = none) ∧
      ∀ (s : SimState) (alg : String) (q1 q2 : Option Int), alg ≠ "RR" →
        onSubmit s alg q1 = onSubmit s alg q2 := by
  refine ⟨?_, ⟨rfl, ?_⟩, ?_⟩
  · intro v hv
    show decide (v ≤ 100) = false
    apply decide_eq_false
    omega
  · intro s hne
    constructor
    · have htl : (onSubmit s "RR" none).1.timeline = buildTimeline s.processes "RR" none := by
        rw [onSubmit_ok hne]
      rw [htl, buildTimeline_not_pps (by decide), computeRaw_rr]
      rfl
    · rw [onSubmit_ok hne]
  · intro s alg q1 q2 halg
    unfold onSubmit
    by_cases h : s.processes = []
    · rw [if_pos h, if_pos h]
    · rw [if_neg h, if_neg h]
      have hbt : buildTimeline s.processes alg q1 = buildTimeline s.processes alg q2 := by
        unfold buildTimeline
        rw [computeRaw_quantum_ignored halg s.processes q1 q2]
      rw [hbt]

/-- Witness for the amended C2 at concrete inputs. -/
theorem c2_amended_witness :
    formSchemaQuantumOk (some 101) = false ∧
      (onSubmit ⟨[⟨1, 0, 2, "", none⟩], []⟩ "RR" none).1.timeline =
        assemble (roundRobin [⟨1, 0, 2, "", none⟩] 0) ∧
      onSubmit ⟨[⟨1, 0, 2, "", none⟩], []⟩ "SJF" (some 7) =
        onSubmit ⟨[⟨1, 0, 2, "", none⟩], []⟩ "SJF" none :=
  ⟨c2_amended_quantum_validation.1 101 (by decide),
    (c2_amended_quantum_validation.2.1.2 ⟨[⟨1, 0, 2, "", none⟩], []⟩ (by decide)).1,
    c2_amended_quantum_validation.2.2 ⟨[⟨1, 0, 2, "", none⟩], []⟩ "SJF"
      (some 7) none (by decide)⟩

/-- C3: for every algorithm other than preemptive priority, the assembly
pass maps the decision sequence to the timeline entry by entry: the i-th
slice equals the i-th raw entry with its arrival time replaced by
max(current clock, arrival time), where the clock starts at 0 and, after
each entry, becomes that start plus the entry's recorded amount. -/
theorem c3_assembler_characterization (s : SimState) (alg : String) (q : Option Int)
    (halg : alg ≠ "PPS") (hne : s.processes ≠ []) :
    (onSubmit s alg q).1.timeline = assemble (computeRaw s.processes alg q) ∧
      (onSubmit s alg q).1.timeline.length = (computeRaw s.processes alg q).length ∧
      ∀ (i : Nat) (e : Process), (computeRaw s.processes alg q)[i]? = some e →
        (onSubmit s alg q).1.timeline[i]? =
          some (assembledSlice (computeRaw s.processes alg q) i e) := by
  have htl : (onSubmit s alg q).1.timeline = assemble (computeRaw s.processes alg q) := by
    rw [onSubmit_ok hne]
    show buildTimeline s.processes alg q = _
    exact buildTimeline_not_pps halg s.processes q
  refine ⟨htl, ?_, ?_⟩
  · rw [htl]
    exact assembleFrom_length _ 0
  · intro i e he
    rw [htl]
    exact assembleFrom_getElem? _ 0 i e he

/-- Witness for C3 at a concrete FCFS input. -/
theorem c3_witness :
    ("fCFS" ≠ "PPS") ∧ (([⟨1, 2, 3, "", none⟩] : List Process) ≠ []) ∧
      ((onSubmit ⟨[⟨1, 2, 3, "", none⟩], []⟩ "fCFS" none).1.timeline =
          assemble (computeRaw [⟨1, 2, 3, "", none⟩] "fCFS" none) ∧
        (onSubmit ⟨[⟨1, 2, 3, "", none⟩], []⟩ "fCFS" none).1.timeline.length =
          (computeRaw [⟨1, 2, 3, "", none⟩] "fCFS" none).length ∧
        ∀ (i : Nat) (e : Process),
          (computeRaw [⟨1, 2, 3, "", none⟩] "fCFS" none)[i]? = some e →
          (onSubmit ⟨[⟨1, 2, 3, "", none⟩], []⟩ "fCFS" none).1.timeline[i]? =
            some (assembledSlice (computeRaw [⟨1, 2, 3, "", none⟩] "fCFS" none) i e)) :=
  ⟨by decide, by decide,
    c3_assembler_characterization ⟨[⟨1, 2, 3, "", none⟩], []⟩ "fCFS" none
      (by decide) (by decide)⟩

/-- C4: when the selected algorithm is preemptive priority, the assembly
pass is a pass-through: the timeline handed to the caller equals the
strategy's raw output element for element. -/
theorem c4_pps_passthrough (s : SimState) (q : Option Int) (hne : s.processes ≠ []) :
    (onSubmit s "PPS" q).1.timeline = preemptivePriority s.processes := by
  rw [onSubmit_ok hne]
  show buildTimeline s.processes "PPS" q = _
  exact buildTimeline_pps s.processes q

/-- Witness for C4 at the concrete preemptive-priority scenario of the
spec. -/
theorem c4_witness :
    (([⟨1, 0, 4, "", some 2⟩, ⟨2, 2, 2, "", some 1⟩] : List Process) ≠ []) ∧
      (onSubmit ⟨[⟨1, 0, 4, "", some 2⟩, ⟨2, 2, 2, "", some 1⟩], []⟩ "PPS" none).1.timeline =
        preemptivePriority [⟨1, 0, 4, "", some 2⟩, ⟨2, 2, 2, "", some 1⟩] :=
  ⟨by decide,
    c4_pps_passthrough ⟨[⟨1, 0, 4, "", some 2⟩, ⟨2, 2, 2, "", some 1⟩], []⟩ none (by decide)⟩

/-- C5 as stated is false on the code: a priority strategy requested with
a process lacking a priority is not rejected; no error is raised and the
simulation runs, producing a nonempty timeline (the cast in the source is
a compile-time assertion with no runtime effect). -/
theorem c5_counterexample :
    (onSubmit ⟨[⟨1, 0, 2, "", none⟩], []⟩ "NPPS" none).2 = none ∧
      (onSubmit ⟨[⟨1, 0, 2, "", none⟩], []⟩ "NPPS" none).1.timeline ≠ [] ∧
      (onSubmit ⟨[⟨1, 0, 2, "", none⟩], []⟩ "PPS" none).2 = none := by
  decide

/-- C5 (amended): when a priority strategy is requested and one or more
processes lack a priority value, the run is not rejected: there is no
runtime MissingPriority check, and submission proceeds to compute and
install a timeline exactly as for fully-prioritized input. -/
theorem c5_amended_no_priority_check (s : SimState) (alg : String) (q : Option Int)
    (halg : alg = "NPPS" ∨ alg = "PPS") (hne : s.processes ≠ [])
    (hmiss : ∃ p ∈ s.processes, p.priority = none) :
    onSubmit s alg q = ({ s with timeline := buildTimeline s.processes alg q }, none) :=
  onSubmit_ok hne alg q

/-- Witness for the amended C5 at a concrete priority-less input. -/
theorem c5_amended_witness :
    ("NPPS" = "NPPS" ∨ "NPPS" = "PPS") ∧
      (([⟨1, 0, 2, "", none⟩] : List Process) ≠ []) ∧
      (∃ p ∈ ([⟨1, 0, 2, "", none⟩] : List Process), p.priority = none) ∧
      onSubmit ⟨[⟨1, 0, 2, "", none⟩], []⟩ "NPPS" none =
        ({ processes := [⟨1, 0, 2, "", none⟩],
            timeline := buildTimeline [⟨1, 0, 2, "", none⟩] "NPPS" none }, none) :=
  ⟨Or.inl rfl, by decide, by decide,
    c5_amended_no_priority_check ⟨[⟨1, 0, 2, "", none⟩], []⟩ "NPPS" none
      (Or.inl rfl) (by decide) (by decide)⟩

/-- C6: submitting with an empty process list raises the blocking toast,
attempts no strategy or assembly computation, and leaves the component
state, including the previously displayed timeline, unchanged. -/
theorem c6_empty_input (s : SimState) (alg : String) (q : Option Int)
    (h : s.processes = []) :
    onSubmit s alg q = (s, some emptyInputToast) ∧
      (onSubmit s alg q).1.timeline = s.timeline := by
  refine ⟨onSubmit_empty h alg q, ?_⟩
  rw [onSubmit_empty h alg q]

/-- Witness for C6 with a previously displayed timeline left intact. -/
theorem c6_witness :
    (SimState.mk [] [⟨1, 0, 4, "", none⟩]).processes = [] ∧
      (onSubmit ⟨[], [⟨1, 0, 4, "", none⟩]⟩ "RR" none =
          (⟨[], [⟨1, 0, 4, "", none⟩]⟩, some emptyInputToast) ∧
        (onSubmit ⟨[], [⟨1, 0, 4, "", none⟩]⟩ "RR" none).1.timeline =
          (SimState.mk [] [⟨1, 0, 4, "", none⟩]).timeline) :=
  ⟨rfl, c6_empty_input ⟨[], [⟨1, 0, 4, "", none⟩]⟩ "RR" none rfl⟩

/-- C7: running a simulation never mutates the caller's process list: the
processes component of the state after onSubmit equals the one before,
record for record, for every algorithm and quantum. -/
theorem c7_no_mutation (s : SimState) (alg : String) (q : Option Int) :
    (onSubmit s alg q).1.processes = s.processes := by
  unfold onSubmit
  by_cases h : s.processes = []
  · rw [if_pos h]
  · rw [if_neg h]

/-- C8: the engine is deterministic: the produced timeline and metrics
depend only on the process list, the algorithm and the quantum, so two
submissions with identical input produce identical results, regardless of
any other component state. -/
theorem c8_determinism (s1 s2 : SimState) (alg : String) (q : Option Int)
    (hp : s1.processes = s2.processes) (hne : s1.processes ≠ []) :
    (onSubmit s1 alg q).1.timeline = (onSubmit s2 alg q).1.timeline ∧
      metricsOf (onSubmit s1 alg q).1.timeline s1.processes =
        metricsOf (onSubmit s2 alg q).1.timeline s2.processes := by
  have hne2 : s2.processes ≠ [] := by
    rw [← hp]
    exact hne
  have htl1 : (onSubmit s1 alg q).1.timeline = buildTimeline s1.processes alg q := by
    rw [onSubmit_ok hne]
  have htl2 : (onSubmit s2 alg q).1.timeline = buildTimeline s2.processes alg q := by
    rw [onSubmit_ok hne2]
  rw [htl1, htl2, hp]
  exact ⟨rfl, rfl⟩

/-- Witness for C8: two states sharing the process list but with
different previously displayed timelines produce the same results. -/
theorem c8_witness :
    (SimState.mk [⟨1, 0, 2, "", none⟩] [⟨9, 9, 9, "", none⟩]).processes =
        (SimState.mk [⟨1, 0, 2, "", none⟩] []).processes ∧
      ((onSubmit ⟨[⟨1, 0, 2, "", none⟩], [⟨9, 9, 9, "", none⟩]⟩ "SRTF" none).1.timeline =
          (onSubmit ⟨[⟨1, 0, 2, "", none⟩], []⟩ "SRTF" none).1.timeline ∧
        metricsOf
            (onSubmit ⟨[⟨1, 0, 2, "", none⟩], [⟨9, 9, 9, "", none⟩]⟩ "SRTF" none).1.timeline
            (SimState.mk [⟨1, 0, 2, "", none⟩] [⟨9, 9, 9, "", none⟩]).processes =
          metricsOf (onSubmit ⟨[⟨1, 0, 2, "", none⟩], []⟩ "SRTF" none).1.timeline
            (SimState.mk [⟨1, 0, 2, "", none⟩] []).processes) :=
  ⟨rfl, c8_determinism ⟨[⟨1, 0, 2, "", none⟩], [⟨9, 9, 9, "", none⟩]⟩
    ⟨[⟨1, 0, 2, "", none⟩], []⟩ "SRTF" none rfl (by decide)⟩

/-- C9: for every process, every one of the six strategies, and every
valid input, the computed waiting time is nonnegative and the computed
turnaround time is at least the process's burst time. -/
theorem c9_metrics_nonnegativity (s : SimState) (alg : String) (q : Option Int)
    (hval : ValidInput s.processes alg q) (halg : alg ∈ algorithms) :
    ∀ p ∈ s.processes, 0 ≤ waitingTime (onSubmit s alg q).1.timeline p ∧
      p.burst_time ≤ turnaroundTime (onSubmit s alg q).1.timeline p := by
  rcases hval with ⟨hne, hu, hvv, hqv, _⟩
  have htl : (onSubmit s alg q).1.timeline = buildTimeline s.processes alg q := by
    rw [onSubmit_ok hne]
  rw [htl]
  intro p hp
  have hkey := (timeline_facts hne hu hvv hqv halg).2.2 p hp
  unfold waitingTime turnaroundTime
  constructor
  · omega
  · omega

/-- Witness for C9 at a concrete valid shortest-job-first input. -/
theorem c9_witness :
    ValidInput ([⟨1, 0, 5, "", none⟩, ⟨2, 1, 3, "", none⟩, ⟨3, 2, 1, "", none⟩] :
        List Process) "SJF" none ∧
      "SJF" ∈ algorithms ∧
      ∀ p ∈ ([⟨1, 0, 5, "", none⟩, ⟨2, 1, 3, "", none⟩, ⟨3, 2, 1, "", none⟩] :
          List Process),
        0 ≤ waitingTime
            (onSubmit ⟨[⟨1, 0, 5, "", none⟩, ⟨2, 1, 3, "", none⟩, ⟨3, 2, 1, "", none⟩], []⟩
              "SJF" none).1.timeline p ∧
          p.burst_time ≤ turnaroundTime
            (onSubmit ⟨[⟨1, 0, 5, "", none⟩, ⟨2, 1, 3, "", none⟩, ⟨3, 2, 1, "", none⟩], []⟩
              "SJF" none).1.timeline p :=
  ⟨by decide, by decide,
    c9_metrics_nonnegativity
      ⟨[⟨1, 0, 5, "", none⟩, ⟨2, 1, 3, "", none⟩, ⟨3, 2, 1, "", none⟩], []⟩
      "SJF" none (by decide) (by decide)⟩

/-- C10: an algorithm value matching none of the six recognized case
labels leaves the raw decision sequence empty, installs an empty
timeline, raises no error, and renders no results. -/
theorem c10_unknown_algorithm (s : SimState) (alg : String) (q : Option Int)
    (hne : s.processes ≠ []) (halg : alg ∉ algorithms) :
    computeRaw s.processes alg q = [] ∧
      onSubmit s alg q = ({ s with timeline := [] }, none) ∧
      resultsRendered (onSubmit s alg q).1 = false := by
  have hraw := computeRaw_unknown halg s.processes q
  have hpps : alg ≠ "PPS" := by
    intro h
    apply halg
    rw [h]
    decide
  have hbt : buildTimeline s.processes alg q = [] := by
    rw [buildTimeline_not_pps hpps, hraw]
    rfl
  refine ⟨hraw, ?_, ?_⟩
  · rw [onSubmit_ok hne, hbt]
  · rw [onSubmit_ok hne]
    show resultsRendered { s with timeline := buildTimeline s.processes alg q } = false
    unfold resultsRendered
    rw [hbt]
    rfl

/-- Witness for C10 at a concrete unrecognized algorithm value. -/
theorem c10_witness :
    (([⟨1, 0, 2, "", none⟩] : List Process) ≠ []) ∧ ("XYZ" ∉ algorithms) ∧
      (computeRaw [⟨1, 0, 2, "", none⟩] "XYZ" none = [] ∧
        onSubmit ⟨[⟨1, 0, 2, "", none⟩], []⟩ "XYZ" none =
          ({ processes := [⟨1, 0, 2, "", none⟩], timeline := [] }, none) ∧
        resultsRendered (onSubmit ⟨[⟨1, 0, 2, "", none⟩], []⟩ "XYZ" none).1 = false) :=
  ⟨by decide, by decide,
    c10_unknown_algorithm ⟨[⟨1, 0, 2, "", none⟩], []⟩ "XYZ" none (by decide) (by decide)⟩
